import Mathlib

/-!
Verification of the fast-cx-circs repository (CX-circuit synthesis).

This file gives a shallow embedding of the repository's core data
structures and algorithms and proves (or refutes) the frozen claims
about them:

* `src/cx_circuit.rs` — the bit-packed 16×16 GF(2) matrix `CXCircuit16`
  (rows are `NonZeroU16`, i.e. non-zero 16-bit values, modelled as `Nat`
  with an explicit `Option` wherever the Rust unwraps a `NonZeroU16`);
* `src/a_star/graph.rs` — the A* search graph with `add_cx`, `add_merge`,
  `path`, `disallowed_qubits`;
* `src/a_star/expand_children.rs` — the expansion policy
  (`expand_children`, `is_mergeable`, `find_mergeable_nodes`,
  `backward_dfs`, `propagate_forward`, `get_cx_qbs`);
* `src/a_star.rs` — the A* driver loop;
* `src/bfs.rs` — one step of the breadth-first search.

Machine integers: the Rust code uses `u16`/`u8`/`usize`.  Matrix rows are
16-bit values and every row operation is a XOR / AND / shift of values
below `2 ^ 16`, which `Nat` models exactly (no wrap can occur); where the
Rust can fail (`NonZeroU16::new(..).unwrap()`, counter underflow in
`disallowed_qubits`, `pq.pop().expect(..)`), the embedding returns an
`Option`/explicit outcome instead.  Hash-set and hash-map iteration
orders of `fxhash` containers are unspecified in Rust; the embedding
fixes insertion order, which is recorded at each definition it affects.
-/

/-- A CX gate on two qubits (src/cx.rs, `pub struct CX { ctrl: u8, tgt: u8 }`).
The `u8` fields are modelled as `Nat`. -/
structure CX where
  ctrl : Nat
  tgt : Nat
deriving DecidableEq, Repr

/-- The matrix of a 16-qubit CX circuit: 16 rows, each a 16-bit value
(src/cx_circuit.rs, `matrix: [NonZeroU16; 16]`).  The non-zero-ness of
rows is not baked into the type; it is the `WfMat` predicate, and the
operations that unwrap `NonZeroU16::new` are modelled with `Option`. -/
def Mat : Type := Fin 16 → Nat

/-- Rows of the identity circuit (src/cx_circuit.rs `eye`): `matrix[i] = 1 << i`. -/
def eyeMat : Mat := fun i => 2 ^ (i : Nat)

/-- Well-formedness of a matrix: every row is a non-zero 16-bit value,
exactly the representation invariant of `[NonZeroU16; 16]`. -/
def WfMat (A : Mat) : Prop := ∀ i, A i ≠ 0 ∧ A i < 2 ^ 16

instance (A : Mat) : Decidable (WfMat A) := by unfold WfMat; infer_instance

/-- Boolean version of `WfMat`, for fast closed evaluation. -/
def wfMatB (A : Mat) : Bool :=
  (List.finRange 16).all (fun i => A i != 0 && decide (A i < 2 ^ 16))

theorem wfMat_of_b {A : Mat} (h : wfMatB A = true) : WfMat A := by
  intro i
  have hi := List.all_eq_true.mp h i (List.mem_finRange i)
  simp only [Bool.and_eq_true, bne_iff_ne, ne_eq, decide_eq_true_eq] at hi
  exact hi

/-- Boolean equality test of two matrices, comparing all 16 rows; this is
the observable equality of `CXCircuit16` (derived `PartialEq` compares the
row arrays). -/
def matBeq (A B : Mat) : Bool := (List.finRange 16).all (fun i => A i == B i)

theorem eq_of_matBeq {A B : Mat} (h : matBeq A B = true) : A = B := by
  funext i
  exact beq_iff_eq.mp (List.all_eq_true.mp h i (List.mem_finRange i))

theorem matBeq_of_eq {A B : Mat} (h : A = B) : matBeq A B = true := by
  subst h
  exact List.all_eq_true.mpr (fun i _ => beq_iff_eq.mpr rfl)

/-- Boolean equality test lifted to `Option Mat`. -/
def optMatBeq : Option Mat → Option Mat → Bool
  | none, none => true
  | some A, some B => matBeq A B
  | _, _ => false

theorem eq_of_optMatBeq : ∀ {x y : Option Mat}, optMatBeq x y = true → x = y
  | none, none, _ => rfl
  | some A, some B, h => by rw [eq_of_matBeq (h : matBeq A B = true)]
  | none, some _, h => by simp [optMatBeq] at h
  | some _, none, h => by simp [optMatBeq] at h

theorem option_some_bind {α β : Type} (a : α) (f : α → Option β) :
    (some a).bind f = f a := rfl

/-- Number of set bits of a 16-bit value (`u16::count_ones` in
`mult_transpose`); the argument is below `2 ^ 16` at every use site, so
counting the low 16 bit positions is exact. -/
def popCount16 (x : Nat) : Nat := (List.range 16).countP (fun k => x.testBit k)

/-- Sum of `2 ^ j` over the bit positions `j < n` where `f j` holds; the
accumulator pattern `row += 1 << j` of `transpose` and `mult_transpose`. -/
def ofBits (n : Nat) (f : Nat → Bool) : Nat :=
  ((List.range n).map (fun j => if f j then 2 ^ j else 0)).sum

/-- Row `i` of `mult_transpose` (src/cx_circuit.rs lines 101-113): for each
`j`, compute the parity of `popcount(self.matrix[i] & other.matrix[j])` and
add `1 << j` when it is odd. -/
def multTransposeRow (A B : Mat) (i : Fin 16) : Nat :=
  ofBits 16 (fun j => if h : j < 16 then decide (popCount16 (A i &&& B ⟨j, h⟩) % 2 = 1) else false)

/-- The `mult_transpose` function; `from_mat` unwraps `NonZeroU16::new` on
every row, so the result is `none` when some row of the product is zero
(which in the Rust is a panic). -/
def multTransposeOpt (A B : Mat) : Option Mat :=
  if (List.finRange 16).all (fun i => multTransposeRow A B i != 0) then
    some (fun i => multTransposeRow A B i)
  else none

/-- Row `i` of `transpose` (src/cx_circuit.rs lines 115-127): bit `j` of the
result row is bit `i` of `matrix[j]` (`matrix[j] & (1 << i) != 0`). -/
def transposeRow (A : Mat) (i : Fin 16) : Nat :=
  ofBits 16 (fun j => if h : j < 16 then (A ⟨j, h⟩).testBit (i : Nat) else false)

/-- The `transpose` function; every row is wrapped in
`NonZeroU16::new(row).unwrap()`, so the result is `none` when some row of
the transpose is zero. -/
def transposeOpt (A : Mat) : Option Mat :=
  if (List.finRange 16).all (fun i => transposeRow A i != 0) then
    some (fun i => transposeRow A i)
  else none

/-- The `mult` default method (src/cx_circuit.rs lines 17-20):
`let other_t = other.transpose(); self.mult_transpose(&other_t)`. -/
def multOpt (A B : Mat) : Option Mat :=
  (transposeOpt B).bind (fun bt => multTransposeOpt A bt)

/-- Invertibility of a matrix, expressed with the code's own composition:
some matrix composes with `A` to the identity on both sides (and the
compositions succeed). -/
def InvMat (A : Mat) : Prop :=
  ∃ B, multOpt A B = some eyeMat ∧ multOpt B A = some eyeMat

/-- The `CXCircuit16::add_cx` operation (src/cx_circuit.rs lines 94-99):
`row[t] ^= row[c]`, re-wrapped as `NonZeroU16::new(new_tgt_value).unwrap()`;
`none` models the unwrap panic on a zero row. -/
def addCxOpt (A : Mat) (c t : Fin 16) : Option Mat :=
  if A t ^^^ A c = 0 then none else some (Function.update A t (A t ^^^ A c))

/-- The `AStarValue::cx` implementation for `CXCircuit16`
(src/cx_circuit.rs lines 62-66) with the `NonZeroU16` re-wrap stripped:
the pure row update `row[t] ^= row[c]`.  It agrees with `addCxOpt`
whenever the updated row is non-zero; the concrete search traces below
only ever pass through well-formed matrices, where the two coincide. -/
def cx16 (A : Mat) (c t : Fin 16) : Mat := Function.update A t (A t ^^^ A c)

/-- The `AStarValue::merge` implementation for `CXCircuit16`
(src/cx_circuit.rs lines 68-74): copy the rows listed in `used_qubits`
from `other`.  The `FxHashSet` is modelled as a list with membership
semantics (row copies commute, so iteration order is irrelevant). -/
def merge16 (A B : Mat) (used : List (Fin 16)) : Mat :=
  fun i => if i ∈ used then B i else A i

/-- The `AStarValue::dist` implementation for `CXCircuit16`
(src/cx_circuit.rs lines 54-60): the number of rows where the two
matrices differ. -/
def dist16 (A B : Mat) : Nat :=
  ((List.finRange 16).filter (fun i => A i != B i)).length

/-- The `AStarValue::is_complete` implementation for `CXCircuit16`
(src/cx_circuit.rs lines 76-78): row `qb` already equals the target row. -/
def isComplete16 (A : Mat) (qb : Fin 16) (target : Mat) : Bool :=
  A qb == target qb

theorem ofBits_zero (f : Nat → Bool) : ofBits 0 f = 0 := rfl

theorem sum_map_double (l : List Nat) (g : Nat → Nat) :
    (l.map (fun j => 2 * g j)).sum = 2 * (l.map g).sum := by
  induction l with
  | nil => simp
  | cons a l ih => simp [ih, Nat.mul_add]

theorem ofBits_succ (n : Nat) (f : Nat → Bool) :
    ofBits (n + 1) f = (if f 0 then 1 else 0) + 2 * ofBits n (fun j => f (j + 1)) := by
  unfold ofBits
  rw [List.range_succ_eq_map, List.map_cons, List.sum_cons, List.map_map]
  have hpt : ((fun j => if f j then 2 ^ j else 0) ∘ Nat.succ) =
      fun j => 2 * (if f (j + 1) then 2 ^ j else 0) := by
    funext j
    simp only [Function.comp_apply, Nat.succ_eq_add_one]
    by_cases h : f (j + 1) = true
    · rw [if_pos h, if_pos h, pow_succ, Nat.mul_comm]
    · rw [if_neg h, if_neg h, Nat.mul_zero]
  rw [hpt, sum_map_double]
  rfl

theorem ofBits_lt (n : Nat) (f : Nat → Bool) : ofBits n f < 2 ^ n := by
  induction n generalizing f with
  | zero => simp [ofBits_zero]
  | succ m ih =>
    rw [ofBits_succ]
    have h := ih (fun j => f (j + 1))
    have h2 : (2 : Nat) ^ (m + 1) = 2 * 2 ^ m := by ring
    split <;> omega

theorem testBit_ofBits (n : Nat) (f : Nat → Bool) (k : Nat) :
    (ofBits n f).testBit k = (decide (k < n) && f k) := by
  induction k generalizing n f with
  | zero =>
    cases n with
    | zero => simp [ofBits_zero]
    | succ m =>
      rw [ofBits_succ, Nat.testBit_zero]
      have hmod : ((if f 0 then 1 else 0) + 2 * ofBits m (fun j => f (j + 1))) % 2 =
          if f 0 then 1 else 0 := by
        rcases f 0 <;> simp [Nat.add_mul_mod_self_left]
      rw [hmod]
      rcases f 0 <;> simp
  | succ k ih =>
    cases n with
    | zero => simp [ofBits_zero]
    | succ m =>
      rw [ofBits_succ, Nat.testBit_succ]
      have hdiv : ((if f 0 then 1 else 0) + 2 * ofBits m (fun j => f (j + 1))) / 2 =
          ofBits m (fun j => f (j + 1)) := by
        rcases f 0 <;> simp <;> omega
      rw [hdiv, ih]
      simp [Nat.succ_lt_succ_iff]

theorem testBit_high_of_lt {x n k : Nat} (hx : x < 2 ^ n) (hk : n ≤ k) :
    x.testBit k = false := by
  apply Nat.testBit_lt_two_pow
  exact lt_of_lt_of_le hx (Nat.pow_le_pow_right (by omega) hk)

theorem transposeRow_testBit (A : Mat) (i : Fin 16) (k : Nat) (hk : k < 16) :
    (transposeRow A i).testBit k = (A ⟨k, hk⟩).testBit (i : Nat) := by
  unfold transposeRow
  rw [testBit_ofBits]
  simp [hk]

theorem transposeRow_lt (A : Mat) (i : Fin 16) : transposeRow A i < 2 ^ 16 :=
  ofBits_lt 16 _

/-- Claim C8 core lemma: an invertible matrix has pairwise distinct rows,
because row `i` of `mult_transpose(A, Bt)` depends on `A` only through row
`i`, and the rows of the identity are pairwise distinct. -/
theorem rows_distinct_of_inv (A : Mat) (hinv : InvMat A) {c t : Fin 16} (hne : c ≠ t) :
    A c ≠ A t := by
  intro heq
  obtain ⟨B, hAB, _⟩ := hinv
  unfold multOpt at hAB
  cases hBt : transposeOpt B with
  | none => rw [hBt] at hAB; simp at hAB
  | some Bt =>
    rw [hBt, option_some_bind] at hAB
    have hAB2 : multTransposeOpt A Bt = some eyeMat := hAB
    unfold multTransposeOpt at hAB2
    split at hAB2
    · have hfun : (fun i => multTransposeRow A Bt i) = eyeMat :=
        Option.some_injective _ hAB2
      have hc : multTransposeRow A Bt c = 2 ^ (c : Nat) := congrFun hfun c
      have ht : multTransposeRow A Bt t = 2 ^ (t : Nat) := congrFun hfun t
      have hrow : multTransposeRow A Bt c = multTransposeRow A Bt t := by
        unfold multTransposeRow
        rw [heq]
      have hpow : (2 : Nat) ^ (c : Nat) = 2 ^ (t : Nat) := by rw [← hc, ← ht, hrow]
      have hval : (c : Nat) = (t : Nat) := Nat.pow_right_injective (by omega) hpow
      exact hne (Fin.ext hval)
    · simp at hAB2

/-- Claim C8: for a well-formed invertible `CXCircuit16` and a CX gate with
`ctrl ≠ tgt`, applying `cx(c, t)` twice returns the matrix unchanged, and
neither application hits the `NonZeroU16::new(..).unwrap()` failure. -/
theorem cx_cx_eq_self (A : Mat) (hwf : WfMat A) (hinv : InvMat A)
    (c t : Fin 16) (hne : c ≠ t) :
    ∃ A2, addCxOpt A c t = some A2 ∧ addCxOpt A2 c t = some A := by
  have hdist : A c ≠ A t := rows_distinct_of_inv A hinv hne
  have hv : A t ^^^ A c ≠ 0 := by
    intro h
    exact hdist (Nat.xor_eq_zero.mp h).symm
  refine ⟨Function.update A t (A t ^^^ A c), ?_, ?_⟩
  · unfold addCxOpt
    rw [if_neg hv]
  · unfold addCxOpt
    have hat : Function.update A t (A t ^^^ A c) t = A t ^^^ A c :=
      Function.update_same _ _ _
    have hac : Function.update A t (A t ^^^ A c) c = A c :=
      Function.update_noteq hne _ _
    rw [hat, hac, Nat.xor_assoc, Nat.xor_self, Nat.xor_zero]
    rw [if_neg (hwf t).1]
    rw [Function.update_idem, Function.update_eq_self]

/-- Claim C8 witness: the identity matrix is well-formed and invertible, and
double `cx(0, 1)` on it succeeds and returns the identity. -/
theorem cx_cx_eq_self_witness :
    ∃ A2, addCxOpt eyeMat 0 1 = some A2 ∧ addCxOpt A2 0 1 = some eyeMat :=
  cx_cx_eq_self eyeMat (wfMat_of_b (by rfl))
    ⟨eyeMat, eq_of_optMatBeq (by rfl), eq_of_optMatBeq (by rfl)⟩ 0 1 (by decide)

/-- Claim C9: for well-formed invertible matrices, `mult(A, B)` is
`mult_transpose(A, transpose(B))` (with `transpose(B)` succeeding), and
`transpose` is an involution on `A`, both applications succeeding. -/
theorem mult_transpose_involution (A B : Mat) (hwfA : WfMat A)
    (hinvA : InvMat A) (hinvB : InvMat B) :
    (∃ Bt, transposeOpt B = some Bt ∧ multOpt A B = multTransposeOpt A Bt) ∧
    (∃ At, transposeOpt A = some At ∧ transposeOpt At = some A) := by
  constructor
  · obtain ⟨C, _, hCB⟩ := hinvB
    unfold multOpt at hCB
    cases hBt : transposeOpt B with
    | none => rw [hBt] at hCB; simp at hCB
    | some Bt =>
      refine ⟨Bt, rfl, ?_⟩
      unfold multOpt
      rw [hBt, option_some_bind]
  · obtain ⟨C, _, hCA⟩ := hinvA
    unfold multOpt at hCA
    cases hAt : transposeOpt A with
    | none => rw [hAt] at hCA; simp at hCA
    | some At =>
      refine ⟨At, rfl, ?_⟩
      have hAtdef : At = fun i => transposeRow A i := by
        unfold transposeOpt at hAt
        split at hAt
        · exact (Option.some_injective _ hAt).symm
        · simp at hAt
      have hrows : ∀ i : Fin 16, transposeRow At i = A i := by
        intro i
        apply Nat.eq_of_testBit_eq
        intro k
        by_cases hk : k < 16
        · rw [transposeRow_testBit At i k hk, hAtdef]
          rw [transposeRow_testBit A ⟨k, hk⟩ (i : Nat) i.isLt]
        · rw [testBit_high_of_lt (transposeRow_lt At i) (by omega),
            testBit_high_of_lt (hwfA i).2 (by omega)]
      have hall : ((List.finRange 16).all (fun i => transposeRow At i != 0)) = true := by
        apply List.all_eq_true.mpr
        intro i _
        have hne := (hwfA i).1
        rw [hrows i]
        simpa using hne
      unfold transposeOpt
      rw [hall, if_pos rfl]
      exact congrArg some (funext hrows)

/-- Claim C9 witness: the identity matrix is well-formed and invertible;
its transpose succeeds and transposing twice gives it back, and `mult`
with the identity equals `mult_transpose` against the transpose. -/
theorem mult_transpose_involution_witness :
    (∃ Bt, transposeOpt eyeMat = some Bt ∧
      multOpt eyeMat eyeMat = multTransposeOpt eyeMat Bt) ∧
    (∃ At, transposeOpt eyeMat = some At ∧ transposeOpt At = some eyeMat) :=
  mult_transpose_involution eyeMat eyeMat (wfMat_of_b (by rfl))
    ⟨eyeMat, eq_of_optMatBeq (by rfl), eq_of_optMatBeq (by rfl)⟩
    ⟨eyeMat, eq_of_optMatBeq (by rfl), eq_of_optMatBeq (by rfl)⟩

/-! ### The A* search graph (src/a_star/graph.rs) -/

/-- An edge of the A* graph (src/a_star/graph.rs `AEdge`): either a single
CX application or a merge with two parents. -/
inductive AEdge where
  | Op (op : CX) (src : Nat) (dst : Nat)
  | Merge (src1 : Nat) (src2 : Nat) (dst : Nat)
deriving DecidableEq, Repr

/-- Destination of an edge (src/a_star/graph.rs `AEdge::dst`). -/
def AEdge.dst : AEdge → Nat
  | .Op _ _ d => d
  | .Merge _ _ d => d

/-- Sources of an edge (src/a_star/graph.rs `AEdge::srcs`). -/
def AEdge.srcs : AEdge → List Nat
  | .Op _ s _ => [s]
  | .Merge s1 s2 _ => [s1, s2]

/-- A node of the A* graph (src/a_star/graph.rs `ANode`): cost, the unique
incoming backtracking edge, the outgoing edges, and the per-qubit CX
counters (`cx_count_per_qb: Vec<u16>`; the counters stay far below
`2 ^ 16` on every path considered here, so `Nat` models them exactly). -/
structure ANode where
  cost : Nat
  prev : Option AEdge
  next : List AEdge
  stats : List Nat
deriving DecidableEq, Repr

/-- The root node (src/a_star/graph.rs `ANode::new_root`). -/
def newRootNode : ANode := ⟨0, none, [], []⟩

/-- A child node (src/a_star/graph.rs `ANode::new_child`). -/
def newChildNode (prev : AEdge) (cost : Nat) (stats : List Nat) : ANode :=
  ⟨cost, some prev, [], stats⟩

/-- The operation bundle of the polymorphic `AStarValue` trait
(src/a_star.rs lines 12-30).  `beq` is the observable equality used by the
value-deduplication index (`Eq + Hash` in Rust); `merge` takes the
`used_qubits` as a list with set semantics. -/
structure AValue (V : Type) where
  beq : V → V → Bool
  dist : V → V → Nat
  cx : V → Nat → Nat → V
  merge : V → V → List Nat → V
  isComplete : V → Nat → V → Bool

/-- Lawfulness of the observable equality of a value bundle. -/
def LawfulBeqV {V : Type} (av : AValue V) : Prop :=
  ∀ a b, av.beq a b = true ↔ a = b

/-- The A* search graph (src/a_star/graph.rs `AStarGraph`): the dense node
vector, the bidirectional node-index/value map (`bimap::BiHashMap`,
modelled as an insertion-ordered association list whose two projections
are kept duplicate-free), and the allowed moves (`FxHashSet<CX>`,
modelled as an insertion-ordered duplicate-free list). -/
structure AStarGraph (V : Type) where
  nodes : List ANode
  values : List (Nat × V)
  allowedMoves : List CX

/-- Insertion-order deduplication, the observable content of
`FxHashSet::from_iter`. -/
def dedupCx (l : List CX) : List CX :=
  l.foldl (fun acc c => if c ∈ acc then acc else acc ++ [c]) []

/-- The `AStarGraph::new` constructor (src/a_star/graph.rs lines 52-59). -/
def newGraph {V : Type} (start : V) (moves : List CX) : AStarGraph V :=
  ⟨[newRootNode], [(0, start)], dedupCx moves⟩

/-- The `root_ind` accessor (src/a_star/graph.rs lines 65-67). -/
def rootInd {V : Type} (_ : AStarGraph V) : Nat := 0

/-- Node lookup; the Rust indexes panic when out of bounds, which never
happens on the reachable states considered below. -/
def nodeAt {V : Type} (g : AStarGraph V) (i : Nat) : Option ANode := g.nodes[i]?

/-- The `cost` accessor (src/a_star/graph.rs lines 108-110). -/
def costAt {V : Type} (g : AStarGraph V) (i : Nat) : Nat :=
  ((nodeAt g i).map ANode.cost).getD 0

/-- The `stats` of a node. -/
def statsAt {V : Type} (g : AStarGraph V) (i : Nat) : List Nat :=
  ((nodeAt g i).map ANode.stats).getD []

/-- The `prev_edge` accessor (src/a_star/graph.rs lines 73-75). -/
def prevOf {V : Type} (g : AStarGraph V) (i : Nat) : Option AEdge :=
  ((nodeAt g i).map ANode.prev).getD none

/-- The `next_edges` accessor (src/a_star/graph.rs lines 77-79). -/
def nextOf {V : Type} (g : AStarGraph V) (i : Nat) : List AEdge :=
  ((nodeAt g i).map ANode.next).getD []

/-- The `children` accessor (src/a_star/graph.rs lines 69-71): destinations
of the outgoing edges. -/
def childrenOf {V : Type} (g : AStarGraph V) (i : Nat) : List Nat :=
  (nextOf g i).map AEdge.dst

/-- The `is_expanded` test (src/a_star/graph.rs lines 112-114). -/
def isExpanded {V : Type} (g : AStarGraph V) (i : Nat) : Bool :=
  !(nextOf g i).isEmpty

/-- The `values.get_by_left` lookup. -/
def valueOf {V : Type} (g : AStarGraph V) (i : Nat) : Option V :=
  (g.values.find? (fun p => p.1 == i)).map Prod.snd

/-- The `values.contains_right` test of the deduplication index. -/
def containsRight {V : Type} (av : AValue V) (g : AStarGraph V) (v : V) : Bool :=
  g.values.any (fun p => av.beq p.2 v)

/-- Increment entry `i` of a counter vector (`cx_count_per_qb[i] += 1`). -/
def incrAt (l : List Nat) (i : Nat) : List Nat := l.set i (l.getD i 0 + 1)

/-- Resize a counter vector with zeroes up to length `n` if it is shorter
(`Vec::resize(n, 0)` guarded by a length check). -/
def resizeTo (l : List Nat) (n : Nat) : List Nat :=
  if l.length < n then l ++ List.replicate (n - l.length) 0 else l

/-- Push `edge` onto `nodes[i].next` (`self.nodes[node].next.push(edge)`). -/
def pushNext {V : Type} (g : AStarGraph V) (i : Nat) (edge : AEdge) : AStarGraph V :=
  match g.nodes[i]? with
  | none => g
  | some nd => { g with nodes := g.nodes.set i { nd with next := nd.next ++ [edge] } }

/-- The `add_cx` operation (src/a_star/graph.rs lines 116-155): build the
child edge, cost and stats, compute the child value, and append the new
node unless the value already exists in the graph (the deduplication
policy).  The `none` branch on a missing parent value models the Rust
panic of `unwrap` and is unreachable from well-formed graphs. -/
def addCx {V : Type} (av : AValue V) (g : AStarGraph V) (node : Nat) (gate : CX) :
    Option Nat × AStarGraph V :=
  let edge := AEdge.Op gate node g.nodes.length
  let cost := costAt g node + 1
  let maxQb := max gate.ctrl gate.tgt
  let statsR := resizeTo (statsAt g node) (maxQb + 1)
  let stats := incrAt (incrAt statsR gate.ctrl) gate.tgt
  match valueOf g node with
  | none => (none, g)
  | some v =>
    let newValue := av.cx v gate.ctrl gate.tgt
    if containsRight av g newValue then (none, g)
    else
      let newInd := g.nodes.length
      let g1 : AStarGraph V :=
        { g with
          values := g.values ++ [(newInd, newValue)]
          nodes := g.nodes ++ [newChildNode edge cost stats] }
      (some newInd, pushNext g1 node edge)

/-- The `add_merge` operation (src/a_star/graph.rs lines 157-199): cost is
the sum of the parents' costs, stats the element-wise sum of the parents'
stats, value `src1.value.merge(src2.value, used_qubits)`; deduplicated
like `add_cx`, and on success the same edge is pushed onto both parents'
`next` lists. -/
def addMerge {V : Type} (av : AValue V) (g : AStarGraph V) (src1 src2 : Nat)
    (used : List Nat) : Option Nat × AStarGraph V :=
  let edge := AEdge.Merge src1 src2 g.nodes.length
  let cost := costAt g src1 + costAt g src2
  let stats2 := statsAt g src2
  let statsR := resizeTo (statsAt g src1) stats2.length
  let stats := stats2.enum.foldl (fun b p => b.set p.1 (b.getD p.1 0 + p.2)) statsR
  match valueOf g src1, valueOf g src2 with
  | some v1, some v2 =>
    let newValue := av.merge v1 v2 used
    if containsRight av g newValue then (none, g)
    else
      let newInd := g.nodes.length
      let g1 : AStarGraph V :=
        { g with
          values := g.values ++ [(newInd, newValue)]
          nodes := g.nodes ++ [newChildNode edge cost stats] }
      (some newInd, pushNext (pushNext g1 src1 edge) src2 edge)
  | _, _ => (none, g)

/-- One iteration layer of the `path` loop (src/a_star/graph.rs lines
85-106).  The stack is a `Vec` popped from the back, modelled with the
list head as the stack top (so `extend([src1, src2])` pushes `src2` on
top); `seen` is the visited set; `acc` accumulates gates in discovery
order (`path.push(*op)`), reversed by the caller.  The fuel only bounds
the loop; it is chosen large enough that it never runs out on the
concrete graphs evaluated below. -/
def pathLoop {V : Type} (g : AStarGraph V) :
    Nat → List Nat → List Nat → List CX → List CX
  | 0, _, _, acc => acc
  | _ + 1, [], _, acc => acc
  | fuel + 1, node :: stack, seen, acc =>
    if node ∈ seen then pathLoop g fuel stack seen acc
    else
      let seen2 := node :: seen
      match prevOf g node with
      | some (AEdge.Op op src _) => pathLoop g fuel (src :: stack) seen2 (acc ++ [op])
      | some (AEdge.Merge s1 s2 _) => pathLoop g fuel (s2 :: s1 :: stack) seen2 acc
      | none => pathLoop g fuel stack seen2 acc

/-- The `path` reconstruction (src/a_star/graph.rs lines 85-106): walk
`prev_edge` backwards with a visited set, collecting `Op` gates, and
reverse the result. -/
def pathOf {V : Type} (g : AStarGraph V) (ind : Nat) : List CX :=
  (pathLoop g (2 * g.nodes.length + 2) [ind] [] []).reverse

/-- The `disallowed_qubits` computation (src/a_star/graph.rs lines
201-214), with its two failure modes made explicit: `none` when the
descendant's stats vector is shorter than the ancestor's (index out of
bounds) or when some counter subtraction underflows; otherwise the
qubits with a positive difference `top.stats[qb] - ind.stats[qb]`, in
index order (the Rust collects them into a set). -/
def disallowedQubitsOpt {V : Type} (g : AStarGraph V) (ind top : Nat) :
    Option (List Nat) :=
  let topStats := statsAt g top
  let indStats := statsAt g ind
  if indStats.enum.all (fun p => decide (p.1 < topStats.length) && decide (p.2 ≤ topStats.getD p.1 0)) then
    let sub := indStats.enum.foldl (fun b p => b.set p.1 (b.getD p.1 0 - p.2)) topStats
    some (sub.enum.filterMap (fun p => if 0 < p.2 then some p.1 else none))
  else none

/-- Total version of `disallowed_qubits` used inside the expansion
algorithm, with saturating subtraction; it agrees with
`disallowedQubitsOpt` whenever the latter succeeds, which is the case
at every call site of the expansion policy on reachable graphs
(`backward_dfs` only calls it on ancestor pairs). -/
def disallowedQubits {V : Type} (g : AStarGraph V) (ind top : Nat) : List Nat :=
  let sub := (statsAt g ind).enum.foldl (fun b p => b.set p.1 (b.getD p.1 0 - p.2))
    (statsAt g top)
  sub.enum.filterMap (fun p => if 0 < p.2 then some p.1 else none)

/-! ### The expansion policy (src/a_star/expand_children.rs) -/

/-- The `get_cx_qbs` helper (src/a_star/expand_children.rs lines 246-257):
given a merge edge, the qubit pairs of the two CX edges preceding it, or
`none` when a predecessor is not a CX edge.  Non-merge edges make the
Rust panic; no call site passes one. -/
def getCxQbs {V : Type} (g : AStarGraph V) : AEdge → Option ((Nat × Nat) × (Nat × Nat))
  | .Merge s1 s2 _ =>
    match prevOf g s1, prevOf g s2 with
    | some (.Op op1 _ _), some (.Op op2 _ _) =>
      some ((op1.ctrl, op1.tgt), (op2.ctrl, op2.tgt))
    | _, _ => none
  | .Op _ _ _ => none

/-- The `is_mergeable` test (src/a_star/expand_children.rs lines 100-136):
not expanded, not the root, and either preceded by a CX edge or — after a
merge — the qubits of the two CX edges preceding that merge are all
complete. -/
def isMergeable {V : Type} (g : AStarGraph V) (ind : Nat) (isComplete : Nat → Bool) : Bool :=
  if isExpanded g ind then false
  else
    match prevOf g ind with
    | none => false
    | some (.Op _ _ _) => true
    | some (.Merge s1 s2 _) =>
      let qubits1 : List Nat :=
        match prevOf g s1 with
        | some (.Op op _ _) => [op.ctrl, op.tgt]
        | _ => []
      let qubits2 : List Nat :=
        match prevOf g s2 with
        | some (.Op op _ _) => [op.ctrl, op.tgt]
        | _ => []
      (qubits1 ++ qubits2).all isComplete

/-- Lookup in an association list from node index to qubit list, the model
of the `FxHashMap<ANodeInd, FxHashSet<u8>>` maps of the two-pass merge
search (iteration order of those maps is never observed; only lookups and
key sets are). -/
def lookupNL (m : List (Nat × List Nat)) (k : Nat) : Option (List Nat) :=
  (m.find? (fun p => p.1 == k)).map Prod.snd

/-- Insertion-order set extension (`FxHashSet::extend`): append the
elements not already present. -/
def extendSet (base : List Nat) (xs : List Nat) : List Nat :=
  xs.foldl (fun acc x => if x ∈ acc then acc else acc ++ [x]) base

/-- The `backward_dfs` pass (src/a_star/expand_children.rs lines 157-165):
depth-first from `ind` along `prev_edge` sources, recording
`disallowed_qubits(curr, ind)` for every visited ancestor.  The `Vec`
stack is modelled with the list head as its top (so `extend(srcs)`
pushes the last source on top), and the fuel only bounds the loop. -/
def backwardDfs {V : Type} (g : AStarGraph V) (ind : Nat) :
    Nat → List Nat → List (Nat × List Nat) → List (Nat × List Nat)
  | 0, _, m => m
  | _ + 1, [], m => m
  | fuel + 1, curr :: stack, m =>
    if (lookupNL m curr).isSome then backwardDfs g ind fuel stack m
    else
      let m2 := m ++ [(curr, disallowedQubits g curr ind)]
      let srcs := match prevOf g curr with
        | some e => e.srcs
        | none => []
      backwardDfs g ind fuel (srcs.reverse ++ stack) m2

/-- State of the forward pass: the worklist (`Vec` used as a stack, list
head on top), the `disallowed_qbs` map and the `mergeable_nodes` map. -/
structure FwdState where
  queue : List Nat
  dq : List (Nat × List Nat)
  mergeable : List (Nat × List Nat)

/-- Processing of one outgoing edge in `propagate_forward`
(src/a_star/expand_children.rs lines 176-237).  `past` is
`nodes_in_past`.  A missing `disallowed_qbs` entry for the source of an
`Op` edge makes the Rust `unwrap` panic; the loop invariant noted in the
source (the source of every processed edge has an entry) makes that
branch unreachable, and it is modelled as a skip. -/
def processEdge {V : Type} (g : AStarGraph V) (past : List Nat)
    (st : FwdState) (edge : AEdge) : FwdState :=
  match edge with
  | .Op op src dst =>
    if dst ∈ past then { st with queue := dst :: st.queue }
    else
      match lookupNL st.dq src with
      | none => st
      | some dsrc =>
        if op.ctrl ∈ dsrc || op.tgt ∈ dsrc then st
        else if (lookupNL st.dq dst).isSome then st
        else
          let st2 : FwdState :=
            { queue := dst :: st.queue, dq := st.dq ++ [(dst, dsrc)], mergeable := st.mergeable }
          if isExpanded g dst then
            let used := extendSet ((lookupNL st.mergeable src).getD []) [op.ctrl, op.tgt]
            { st2 with mergeable := st2.mergeable ++ [(dst, used)] }
          else st2
  | .Merge s1 s2 dst =>
    if dst ∈ past then { st with queue := dst :: st.queue }
    else
      match lookupNL st.dq s1, lookupNL st.dq s2 with
      | some d1, some d2 =>
        if (lookupNL st.dq dst).isSome then st
        else
          let inter := d1.filter (fun q => q ∈ d2)
          let st2 : FwdState :=
            { queue := dst :: st.queue, dq := st.dq ++ [(dst, inter)], mergeable := st.mergeable }
          if isExpanded g dst then
            let used0 := (lookupNL st.mergeable s1).getD []
            let used := match lookupNL st.mergeable s2 with
              | some qbs => extendSet used0 qbs
              | none => used0
            { st2 with mergeable := st2.mergeable ++ [(dst, used)] }
          else st2
      | _, _ => st

/-- The `propagate_forward` worklist loop (src/a_star/expand_children.rs
lines 167-241): pop a node, process each of its outgoing edges in order,
repeat; returns the `mergeable_nodes` map. -/
def propagateLoop {V : Type} (g : AStarGraph V) (past : List Nat) :
    Nat → FwdState → List (Nat × List Nat)
  | 0, st => st.mergeable
  | fuel + 1, st =>
    match st.queue with
    | [] => st.mergeable
    | curr :: rest =>
      let st2 := (nextOf g curr).foldl (processEdge g past) { st with queue := rest }
      propagateLoop g past fuel st2

/-- Fuel that is ample for both worklists on every graph: each backward
iteration either records a new node or drops a stack entry, and each
forward pop processes recorded edges. -/
def expFuel {V : Type} (g : AStarGraph V) : Nat :=
  (g.nodes.length + 1) * (g.nodes.length + ((g.nodes.map (fun n => n.next.length)).sum) + 2) + 2

/-- The `find_mergeable_nodes` search (src/a_star/expand_children.rs lines
139-155): backward pass from `ind`, then forward pass from the root. -/
def findMergeableNodes {V : Type} (g : AStarGraph V) (ind : Nat) : List (Nat × List Nat) :=
  let dq := backwardDfs g ind (expFuel g) [ind] []
  let past := dq.map Prod.fst
  propagateLoop g past (expFuel g) ⟨[rootInd g], dq, []⟩

/-- The `expand_children` operation (src/a_star/expand_children.rs lines
35-89).  CX children first — after an `Op` edge, only allowed moves
sharing an endpoint; after a merge with two CX predecessors, the cross
pairs of their qubits in both orientations; at the root, every allowed
move — then, when `is_mergeable` holds on the resulting graph, one
`add_merge` per entry of `find_mergeable_nodes`.  The `FxHashSet`
iterations of `allowed_moves` and of the returned merge map are modelled
in insertion order. -/
def expandChildren {V : Type} (av : AValue V) (g : AStarGraph V) (ind : Nat)
    (isComplete : Nat → Bool) : AStarGraph V :=
  let g1 :=
    match prevOf g ind with
    | some (.Op op _ _) =>
      let moves := g.allowedMoves.filter (fun cx =>
        cx.ctrl == op.ctrl || cx.tgt == op.ctrl || cx.ctrl == op.tgt || cx.tgt == op.tgt)
      moves.foldl (fun h cx => (addCx av h ind cx).2) g
    | some (.Merge s1 s2 d) =>
      match getCxQbs g (.Merge s1 s2 d) with
      | some ((c1, t1), (c2, t2)) =>
        let pairs := [(c1, c2), (c1, t2), (t1, c2), (t1, t2)]
        pairs.foldl (fun h p =>
          let h1 := if (CX.mk p.1 p.2) ∈ g.allowedMoves then (addCx av h ind (CX.mk p.1 p.2)).2 else h
          if (CX.mk p.2 p.1) ∈ g.allowedMoves then (addCx av h1 ind (CX.mk p.2 p.1)).2 else h1) g
      | none => g
    | none =>
      g.allowedMoves.foldl (fun h cx => (addCx av h ind cx).2) g
  if isMergeable g1 ind isComplete then
    (findMergeableNodes g1 ind).foldl (fun h p => (addMerge av h ind p.1 p.2).2) g1
  else g1

/-! ### The A* driver (src/a_star.rs) -/

/-- Outcome of a fuel-bounded run of the driver loop: normal return of the
best solution, an explicit panic (`expect`/`unwrap` failure), or fuel
exhaustion (the run was cut short, no verdict). -/
inductive AOutcome where
  | done (sol : Option (List CX))
  | panicked (msg : String)
  | fuelOut
deriving DecidableEq, Repr

/-- Priority comparison of `PQCost` (src/a_star.rs lines 34-48): an entry
`(cost, gates)` beats another when its estimated total cost is lower, or
equal with more gates already placed. -/
def pqBetter (a b : Nat × Nat) : Bool :=
  a.1 < b.1 || (a.1 == b.1 && b.2 < a.2)

/-- Pop a best entry from the queue (`PriorityQueue::pop`): entries are
`(index, cost, gates)`; among entries of equal priority the Rust order is
unspecified and the model keeps the earliest-inserted one. -/
def popBest : List (Nat × Nat × Nat) → Option ((Nat × Nat × Nat) × List (Nat × Nat × Nat))
  | [] => none
  | x :: xs =>
    match popBest xs with
    | none => some (x, [])
    | some (b, rest) =>
      if pqBetter (b.2.1, b.2.2) (x.2.1, x.2.2) then some (b, x :: rest) else some (x, xs)

/-- Push with priority update (`PriorityQueue::push`): an existing index
gets the new priority, a new index is appended. -/
def pqPush (pq : List (Nat × Nat × Nat)) (ind c gates : Nat) : List (Nat × Nat × Nat) :=
  if pq.any (fun e => e.1 == ind) then
    pq.map (fun e => if e.1 == ind then (ind, c, gates) else e)
  else pq ++ [(ind, c, gates)]

/-- Processing of one child in the driver loop (src/a_star.rs lines
86-104): record a shorter solution when the child value equals the
target, then push the child with priority `(cost + dist, cost)`. -/
def drvChildStep {V : Type} (av : AValue V) (target : V) (g : AStarGraph V)
    (acc : Option (List CX) × List (Nat × Nat × Nat)) (child : Nat) :
    Option (List CX) × List (Nat × Nat × Nat) :=
  let isTarget := match valueOf g child with
    | some v => av.beq v target
    | none => false
  let minSol2 :=
    if isTarget then
      let newSolution := pathOf g child
      match acc.1 with
      | some sol => if newSolution.length < sol.length then some newSolution else some sol
      | none => some newSolution
    else acc.1
  let costEst := costAt g child + (match valueOf g child with
    | some v => av.dist v target
    | none => 0)
  (minSol2, pqPush acc.2 child costEst (costAt g child))

/-- The driver loop (src/a_star.rs lines 67-105), fuel-bounded.  Each
iteration pops the best node — the Rust `expect`s a non-empty queue, so
an empty queue is a panic, not a return — updates the progress cost and
checks the depth cap, stops when no queued node can beat the recorded
solution, expands the node and folds over its children. -/
def aStarLoop {V : Type} (av : AValue V) (target : V) (maxDepth : Option Nat) :
    Nat → AStarGraph V → List (Nat × Nat × Nat) → Option (List CX) → Option Nat → AOutcome
  | 0, _, _, _, _ => .fuelOut
  | fuel + 1, g, pq, minSol, maxCost =>
    match popBest pq with
    | none => .panicked "Ran out of circuits to explore?!"
    | some ((ind, prioCost, _), pq2) =>
      let newMax := maxCost.isNone || decide (maxCost.getD 0 < costAt g ind)
      let maxCost2 := if newMax then some (costAt g ind) else maxCost
      let depthBreak := newMax && maxDepth.isSome && decide (maxDepth.getD 0 < costAt g ind)
      if depthBreak then .done minSol
      else if (match minSol with
        | some sol => decide (sol.length < prioCost)
        | none => false) then .done minSol
      else
        match valueOf g ind with
        | none => .panicked "value unwrap"
        | some v =>
          let g2 := expandChildren av g ind (fun qb => av.isComplete v qb target)
          let res := (childrenOf g2 ind).foldl (drvChildStep av target g2) (minSol, pq2)
          aStarLoop av target maxDepth fuel g2 res.2 res.1 maxCost2

/-- The `a_star` entry point (src/a_star.rs lines 50-107): build the
initial graph, seed the queue with the root at priority
`(dist(start, target), 0)`, and run the loop. -/
def aStar {V : Type} (av : AValue V) (start target : V) (moves : List CX)
    (maxDepth : Option Nat) (fuel : Nat) : AOutcome :=
  let g := newGraph start moves
  aStarLoop av target maxDepth fuel g [(rootInd g, av.dist start target, 0)] none none

/-! ### Instantiation at `CXCircuit16` and a concrete search trace -/

/-- Nat-indexed wrapper of `cx16` (the `u8` arguments of `AStarValue::cx`
are cast to `usize` and index the row array; an out-of-range qubit panics
in Rust and is modelled as the identity, a branch no trace below takes). -/
def cx16N (A : Mat) (c t : Nat) : Mat :=
  if hc : c < 16 then if ht : t < 16 then cx16 A ⟨c, hc⟩ ⟨t, ht⟩ else A else A

/-- Nat-indexed wrapper of `merge16` (out-of-range qubits, a Rust panic,
are dropped; no trace below has any). -/
def merge16N (A B : Mat) (used : List Nat) : Mat :=
  merge16 A B (used.filterMap (fun q => if h : q < 16 then some ⟨q, h⟩ else none))

/-- Nat-indexed wrapper of `isComplete16`. -/
def isComplete16N (A : Mat) (q : Nat) (target : Mat) : Bool :=
  if h : q < 16 then isComplete16 A ⟨q, h⟩ target else false

/-- The `AStarValue` bundle of `CXCircuit16`. -/
def av16 : AValue Mat := ⟨matBeq, dist16, cx16N, merge16N, isComplete16N⟩

/-- Qubits touched by the CX gates in the `prev_edge` history of a node
(the "CX-history qubit set", with multiplicity; only membership is used).
The fuel bounds the backwards recursion and is ample below. -/
def histQbs {V : Type} (g : AStarGraph V) : Nat → Nat → List Nat
  | 0, _ => []
  | fuel + 1, n =>
    match prevOf g n with
    | some (.Op op src _) => histQbs g fuel src ++ [op.ctrl, op.tgt]
    | some (.Merge s1 s2 _) => histQbs g fuel s1 ++ histQbs g fuel s2
    | none => []

/-- Allowed moves of the counterexample trace. -/
def traceMoves : List CX := [⟨0, 1⟩, ⟨1, 2⟩, ⟨0, 2⟩, ⟨0, 3⟩, ⟨3, 4⟩]

/-- Target of the counterexample trace: the circuit
`CX(0,1); CX(1,2); CX(0,3)` applied to the identity. -/
def traceTarget : Mat := cx16N (cx16N (cx16N eyeMat 0 1) 1 2) 0 3

/-- One driver expansion step: `expand_children(ind, |qb|
value(ind).is_complete(qb, target))`, exactly the call at src/a_star.rs
lines 84-85. -/
def traceStep (g : AStarGraph Mat) (i : Nat) : AStarGraph Mat :=
  expandChildren av16 g i (fun qb => av16.isComplete ((valueOf g i).getD eyeMat) qb traceTarget)

/-- A graph reachable from `AStarGraph::new(identity, traceMoves)` by five
`expand_children` steps, expanding the root, then the `CX(1,2)` child,
then the `CX(0,1)` child, then node 10 (`CX(0,1); CX(0,3)`), then node 8
(`CX(0,1); CX(1,2)`).  The last step adds no CX child (all candidate
values are already in the graph) and creates the merge node 13 of nodes 8
and 10, whose two arms share the ancestor node 1 (`CX(0,1)`). -/
def traceGraph : AStarGraph Mat :=
  traceStep (traceStep (traceStep (traceStep (traceStep (newGraph eyeMat traceMoves) 0) 2) 1) 10) 8

/-- Claim C3 counterexample: in the reachable graph `traceGraph`, node 13
is a merge of nodes 8 and 10, and the CX-history qubit sets of the two
merge sources are not disjoint (qubit 0 — and 1 — lies in both). -/
theorem merge_history_not_disjoint :
    prevOf traceGraph 13 = some (AEdge.Merge 8 10 13) ∧
    0 ∈ histQbs traceGraph 32 8 ∧ 0 ∈ histQbs traceGraph 32 10 ∧
    ¬ (∀ q ∈ histQbs traceGraph 32 8, q ∉ histQbs traceGraph 32 10) := by
  refine ⟨by rfl, by decide, by decide, ?_⟩
  intro h
  exact h 0 (by decide) (by decide)

/-- Claim C3 amended: the overlap of the two merge arms' CX-history qubit
sets is exactly the CX-history qubit set of their deepest common
`prev_edge` ancestor (node 1, the `CX(0,1)` node both arms pass through);
outside that common ancestry the two histories touch disjoint qubits. -/
theorem merge_history_overlap_is_common_ancestry :
    prevOf traceGraph 13 = some (AEdge.Merge 8 10 13) ∧
    prevOf traceGraph 8 = some (AEdge.Op ⟨1, 2⟩ 1 8) ∧
    prevOf traceGraph 10 = some (AEdge.Op ⟨0, 3⟩ 1 10) ∧
    (∀ q ∈ histQbs traceGraph 32 8,
      q ∈ histQbs traceGraph 32 10 → q ∈ histQbs traceGraph 32 1) ∧
    (∀ q ∈ histQbs traceGraph 32 1,
      q ∈ histQbs traceGraph 32 8 ∧ q ∈ histQbs traceGraph 32 10) := by
  exact ⟨by rfl, by rfl, by rfl, by decide, by decide⟩

/-- Claim C2: the driver does not terminate normally when the priority
queue runs out — `pq.pop().expect("Ran out of circuits to explore?!")`
panics.  With no allowed moves the root expansion adds no child (this is
independent of any hash iteration order), the queue is empty on the
second iteration, and the search panics instead of returning "none". -/
theorem a_star_empty_queue_panic (n : Nat) :
    aStar av16 eyeMat (cx16N eyeMat 0 1) [] (some 5) (n + 2) =
      AOutcome.panicked "Ran out of circuits to explore?!" := rfl

/-! ### Reachability by add operations, and the deduplication invariants -/

/-- Graphs reachable from `AStarGraph::new` by any sequence of `add_cx`
and `add_merge` operations (with arbitrary arguments; calls whose parent
value lookup fails leave the graph unchanged, standing for the Rust
panic on an invalid index). -/
inductive ReachAdd {V : Type} (av : AValue V) (start : V) (moves : List CX) :
    AStarGraph V → Prop where
  | base : ReachAdd av start moves (newGraph start moves)
  | cx (g : AStarGraph V) (n : Nat) (gate : CX) :
      ReachAdd av start moves g → ReachAdd av start moves (addCx av g n gate).2
  | merge (g : AStarGraph V) (s1 s2 : Nat) (used : List Nat) :
      ReachAdd av start moves g → ReachAdd av start moves (addMerge av g s1 s2 used).2

theorem pushNext_values {V : Type} (g : AStarGraph V) (i : Nat) (e : AEdge) :
    (pushNext g i e).values = g.values := by
  unfold pushNext
  cases g.nodes[i]? <;> rfl

theorem pushNext_allowedMoves {V : Type} (g : AStarGraph V) (i : Nat) (e : AEdge) :
    (pushNext g i e).allowedMoves = g.allowedMoves := by
  unfold pushNext
  cases g.nodes[i]? <;> rfl

theorem pushNext_nodes_length {V : Type} (g : AStarGraph V) (i : Nat) (e : AEdge) :
    (pushNext g i e).nodes.length = g.nodes.length := by
  unfold pushNext
  cases g.nodes[i]? <;> simp

/-- Evolution of the value map and node count under `add_cx`: either the
call leaves the graph unchanged, or it appends exactly one value (not yet
in the graph) keyed by the old node count, and one node. -/
theorem addCx_evolution {V : Type} (av : AValue V) (g : AStarGraph V) (n : Nat)
    (gate : CX) :
    ((addCx av g n gate).2.values = g.values ∧
      (addCx av g n gate).2.nodes.length = g.nodes.length) ∨
    (∃ w, containsRight av g w = false ∧
      (addCx av g n gate).2.values = g.values ++ [(g.nodes.length, w)] ∧
      (addCx av g n gate).2.nodes.length = g.nodes.length + 1) := by
  cases hv : valueOf g n with
  | none =>
    refine Or.inl ⟨?_, ?_⟩ <;> simp [addCx, hv]
  | some v =>
    by_cases hc : containsRight av g (av.cx v gate.ctrl gate.tgt) = true
    · refine Or.inl ⟨?_, ?_⟩ <;> simp [addCx, hv, hc]
    · refine Or.inr ⟨av.cx v gate.ctrl gate.tgt, by simpa using hc, ?_, ?_⟩ <;>
        simp [addCx, hv, hc, pushNext_values, pushNext_nodes_length]

/-- Evolution of the value map and node count under `add_merge`, in the
same shape as for `add_cx`. -/
theorem addMerge_evolution {V : Type} (av : AValue V) (g : AStarGraph V)
    (s1 s2 : Nat) (used : List Nat) :
    ((addMerge av g s1 s2 used).2.values = g.values ∧
      (addMerge av g s1 s2 used).2.nodes.length = g.nodes.length) ∨
    (∃ w, containsRight av g w = false ∧
      (addMerge av g s1 s2 used).2.values = g.values ++ [(g.nodes.length, w)] ∧
      (addMerge av g s1 s2 used).2.nodes.length = g.nodes.length + 1) := by
  cases hv1 : valueOf g s1 with
  | none =>
    refine Or.inl ⟨?_, ?_⟩ <;> simp [addMerge, hv1]
  | some v1 =>
    cases hv2 : valueOf g s2 with
    | none =>
      refine Or.inl ⟨?_, ?_⟩ <;> simp [addMerge, hv1, hv2]
    | some v2 =>
      by_cases hc : containsRight av g (av.merge v1 v2 used) = true
      · refine Or.inl ⟨?_, ?_⟩ <;> simp [addMerge, hv1, hv2, hc]
      · refine Or.inr ⟨av.merge v1 v2 used, by simpa using hc, ?_, ?_⟩ <;>
          simp [addMerge, hv1, hv2, hc, pushNext_values, pushNext_nodes_length]

/-- The well-formedness of the value-deduplication index: both projections
of the bimap are duplicate-free and every key is a valid node index. -/
def ValuesWf {V : Type} (g : AStarGraph V) : Prop :=
  (g.values.map Prod.fst).Nodup ∧ (g.values.map Prod.snd).Nodup ∧
  ∀ p ∈ g.values, p.1 < g.nodes.length

theorem valuesWf_append {V : Type} (av : AValue V) (g : AStarGraph V)
    (hb : LawfulBeqV av) (hwf : ValuesWf g) (w : V)
    (hc : containsRight av g w = false) (gv : AStarGraph V)
    (hv : gv.values = g.values ++ [(g.nodes.length, w)])
    (hn : gv.nodes.length = g.nodes.length + 1) : ValuesWf gv := by
  obtain ⟨h1, h2, h3⟩ := hwf
  refine ⟨?_, ?_, ?_⟩
  · rw [hv]
    simp only [List.map_append, List.map_cons, List.map_nil]
    rw [List.nodup_append]
    refine ⟨h1, List.nodup_singleton _, ?_⟩
    intro x hx hy
    simp only [List.mem_singleton] at hy
    subst hy
    obtain ⟨p, hp, hpx⟩ := List.mem_map.mp hx
    have := h3 p hp
    omega
  · rw [hv]
    simp only [List.map_append, List.map_cons, List.map_nil]
    rw [List.nodup_append]
    refine ⟨h2, List.nodup_singleton _, ?_⟩
    intro x hx hy
    have hxw : x = w := by simpa using hy
    obtain ⟨p, hp, hpx⟩ := List.mem_map.mp hx
    have hcon : av.beq p.2 w = true := (hb p.2 w).mpr (by rw [hpx, hxw])
    have hany : g.values.any (fun q => av.beq q.2 w) = true :=
      List.any_eq_true.mpr ⟨p, hp, hcon⟩
    simp only [containsRight] at hc
    rw [hany] at hc
    cases hc
  · intro p hp
    rw [hv] at hp
    rcases List.mem_append.mp hp with h | h
    · have := h3 p h
      omega
    · simp only [List.mem_singleton] at h
      subst h
      omega

/-- The value-map well-formedness holds on every graph reachable by add
operations. -/
theorem reachAdd_valuesWf {V : Type} (av : AValue V) (start : V) (moves : List CX)
    (hb : LawfulBeqV av) (g : AStarGraph V) (hr : ReachAdd av start moves g) :
    ValuesWf g := by
  induction hr with
  | base =>
    refine ⟨List.nodup_singleton _, List.nodup_singleton _, ?_⟩
    intro p hp
    simp only [newGraph, List.mem_singleton] at hp
    subst hp
    simp [newGraph]
  | cx g n gate _ ih =>
    rcases addCx_evolution av g n gate with ⟨hv, hn⟩ | ⟨w, hc, hv, hn⟩
    · exact ⟨hv ▸ ih.1, hv ▸ ih.2.1, fun p hp => hn ▸ ih.2.2 p (hv ▸ hp)⟩
    · exact valuesWf_append av g hb ih w hc _ hv hn
  | merge g s1 s2 used _ ih =>
    rcases addMerge_evolution av g s1 s2 used with ⟨hv, hn⟩ | ⟨w, hc, hv, hn⟩
    · exact ⟨hv ▸ ih.1, hv ▸ ih.2.1, fun p hp => hn ▸ ih.2.2 p (hv ▸ hp)⟩
    · exact valuesWf_append av g hb ih w hc _ hv hn

/-- Claim C4: on every graph reachable from `AStarGraph::new` by any
sequence of `add_cx` and `add_merge` operations, the node-to-value map is
injective in both directions: two entries share their node index exactly
when they share their operator value. -/
theorem dedup_map_injective {V : Type} (av : AValue V) (start : V) (moves : List CX)
    (hb : LawfulBeqV av) (g : AStarGraph V) (hr : ReachAdd av start moves g) :
    ∀ p ∈ g.values, ∀ q ∈ g.values, (p.1 = q.1 ↔ p.2 = q.2) := by
  obtain ⟨h1, h2, _⟩ := reachAdd_valuesWf av start moves hb g hr
  intro p hp q hq
  constructor
  · intro h
    have hpq := List.inj_on_of_nodup_map h1 hp hq h
    rw [hpq]
  · intro h
    have hpq := List.inj_on_of_nodup_map h2 hp hq h
    rw [hpq]

/-- A toy value bundle on `Nat` for closed instantiations of the generic
graph theorems: `cx` always produces a fresh value. -/
def avNatFresh : AValue Nat :=
  ⟨(· == ·), fun _ _ => 0, fun v _ _ => v + 1, fun a _ _ => a, fun _ _ _ => true⟩

theorem lawfulBeq_avNatFresh : LawfulBeqV avNatFresh := fun _ _ => beq_iff_eq

/-- A toy value bundle on `Nat` whose `cx` and `merge` return the parent
value unchanged, so every add collides with the deduplication index. -/
def avNatConst : AValue Nat :=
  ⟨(· == ·), fun _ _ => 0, fun v _ _ => v, fun a _ _ => a, fun _ _ _ => true⟩

/-- Claim C4 witness: on the concrete reachable graph with one `add_cx`
applied to a fresh root, the map entries `(0, 0)` and `(1, 1)` agree on
neither side. -/
theorem dedup_map_injective_witness :
    (((0, 0) : Nat × Nat).1 = ((1, 1) : Nat × Nat).1 ↔
      ((0, 0) : Nat × Nat).2 = ((1, 1) : Nat × Nat).2) :=
  dedup_map_injective avNatFresh 0 [] lawfulBeq_avNatFresh
    (addCx avNatFresh (newGraph 0 []) 0 ⟨0, 1⟩).2
    (ReachAdd.cx _ 0 ⟨0, 1⟩ ReachAdd.base)
    (0, 0) (by decide) (1, 1) (by decide)

/-- Claim C5: when the freshly computed child value already exists in the
graph, `add_cx` (and likewise `add_merge`) returns `none` and leaves the
graph completely unchanged — the same node vector (hence no new node, no
edge appended to any `next_edges`, no cost or stats entry touched) and
the same value map. -/
theorem dedup_none_graph_unchanged {V : Type} (av : AValue V) (g : AStarGraph V)
    (n s1 s2 : Nat) (gate : CX) (used : List Nat) (v v1 v2 : V) :
    (valueOf g n = some v →
      containsRight av g (av.cx v gate.ctrl gate.tgt) = true →
      addCx av g n gate = (none, g)) ∧
    (valueOf g s1 = some v1 → valueOf g s2 = some v2 →
      containsRight av g (av.merge v1 v2 used) = true →
      addMerge av g s1 s2 used = (none, g)) := by
  constructor
  · intro hv hc
    simp [addCx, hv, hc]
  · intro h1 h2 hc
    simp [addMerge, h1, h2, hc]

/-- Claim C5 witness: with the collapsing value bundle, both adds on the
fresh root graph return `none` and the untouched graph. -/
theorem dedup_none_graph_unchanged_witness :
    addCx avNatConst (newGraph 0 []) 0 ⟨0, 1⟩ = (none, newGraph 0 []) ∧
    addMerge avNatConst (newGraph 0 []) 0 0 [] = (none, newGraph 0 []) :=
  ⟨(dedup_none_graph_unchanged avNatConst (newGraph 0 []) 0 0 0 ⟨0, 1⟩ [] 0 0 0).1
      rfl rfl,
   (dedup_none_graph_unchanged avNatConst (newGraph 0 []) 0 0 0 ⟨0, 1⟩ [] 0 0 0).2
      rfl rfl rfl⟩

/-! ### Stats monotonicity along ancestor paths, and `disallowed_qubits` (C6) -/

/-- Pointwise comparison of two counter vectors, including their lengths. -/
def statsLe (s t : List Nat) : Prop :=
  s.length ≤ t.length ∧ ∀ q, s.getD q 0 ≤ t.getD q 0

theorem statsLe_refl (s : List Nat) : statsLe s s :=
  ⟨Nat.le_refl _, fun _ => Nat.le_refl _⟩

theorem statsLe_trans {a b c : List Nat} (h1 : statsLe a b) (h2 : statsLe b c) :
    statsLe a c :=
  ⟨Nat.le_trans h1.1 h2.1, fun q => Nat.le_trans (h1.2 q) (h2.2 q)⟩

/-- The parent relation along `prev_edge`: `p` is a source of the unique
incoming edge of `b`. -/
def parentOf {V : Type} (g : AStarGraph V) (p b : Nat) : Prop :=
  ∃ e, prevOf g b = some e ∧ p ∈ e.srcs

/-- The ancestor relation: `a` lies on the `prev_edge` ancestor path of
`b` (reflexively). -/
inductive AncPath {V : Type} (g : AStarGraph V) : Nat → Nat → Prop where
  | refl (n : Nat) : AncPath g n n
  | step (a p b : Nat) : AncPath g a p → parentOf g p b → AncPath g a b

/-- Entry `q` of a fold that updates position `p.1` with `f` for every
entry `(p.1, p.2)` of `l.enumFrom n` (the common shape of the stats
subtraction of `disallowed_qubits` and the stats sum of `add_merge`). -/
theorem setFold_getD (f : Nat → Nat → Nat) (l : List Nat) (t : List Nat) (n q : Nat) :
    ((l.enumFrom n).foldl (fun b p => b.set p.1 (f (b.getD p.1 0) p.2)) t).getD q 0 =
      if n ≤ q ∧ q - n < l.length ∧ q < t.length then f (t.getD q 0) (l.getD (q - n) 0)
      else t.getD q 0 := by
  induction l generalizing n t with
  | nil => simp
  | cons c l ih =>
    simp only [List.enumFrom, List.foldl_cons]
    rw [ih]
    have hlen : (t.set n (f (t.getD n 0) c)).length = t.length := by simp
    by_cases hq : q < n
    · rw [if_neg (by omega), if_neg (by omega)]
      rw [List.getD_eq_getElem?_getD, List.getElem?_set_ne (by omega),
        ← List.getD_eq_getElem?_getD]
    · by_cases hqn : q = n
      · subst hqn
        rw [if_neg (by omega)]
        by_cases hb : q < t.length
        · rw [if_pos ⟨Nat.le_refl _, by simp, hb⟩]
          rw [List.getD_eq_getElem?_getD, List.getElem?_set_self (by omega)]
          simp [Nat.sub_self]
        · rw [if_neg (by omega)]
          rw [List.getD_eq_getElem?_getD, List.getD_eq_getElem?_getD,
            List.getElem?_set, if_pos rfl]
          rw [if_neg (by omega), List.getElem?_eq_none (by omega)]
      · have hgt : n < q := by omega
        have hne : (t.set n (f (t.getD n 0) c)).getD q 0 = t.getD q 0 := by
          rw [List.getD_eq_getElem?_getD, List.getElem?_set_ne (by omega),
            ← List.getD_eq_getElem?_getD]
        rw [hlen, hne]
        have harith : q - (n + 1) = q - n - 1 := by omega
        by_cases hc : n + 1 ≤ q ∧ q - (n + 1) < l.length ∧ q < t.length
        · rw [if_pos hc, if_pos (by simp only [List.length_cons]; omega)]
          congr 1
          rw [harith]
          have hcons : l.getD (q - n - 1) 0 = (c :: l).getD (q - n) 0 := by
            have h1 : q - n = (q - n - 1) + 1 := by omega
            rw [h1]
            simp
          rw [hcons]
        · rw [if_neg hc, if_neg (by simp only [List.length_cons]; omega)]

/-- The fold preserves the length of the accumulator. -/
theorem setFold_length (f : Nat → Nat → Nat) (l : List Nat) (t : List Nat) (n : Nat) :
    ((l.enumFrom n).foldl (fun b p => b.set p.1 (f (b.getD p.1 0) p.2)) t).length =
      t.length := by
  induction l generalizing n t with
  | nil => rfl
  | cons c l ih =>
    simp only [List.enumFrom, List.foldl_cons]
    rw [ih]
    simp

/-- Membership in the positive-entry projection of an enumerated list. -/
theorem mem_enumFrom_filterMap_pos (l : List Nat) (n q : Nat) :
    (q ∈ (l.enumFrom n).filterMap (fun p => if 0 < p.2 then some p.1 else none)) ↔
      (n ≤ q ∧ q - n < l.length ∧ 0 < l.getD (q - n) 0) := by
  induction l generalizing n with
  | nil => simp
  | cons c l ih =>
    simp only [List.enumFrom, List.filterMap_cons]
    by_cases hc : 0 < c
    · rw [if_pos hc]
      simp only [List.mem_cons, ih]
      constructor
      · rintro (h | ⟨h1, h2, h3⟩)
        · subst h
          exact ⟨Nat.le_refl _, by simp, by simpa [Nat.sub_self] using hc⟩
        · refine ⟨by omega, by simp only [List.length_cons]; omega, ?_⟩
          have h4 : q - n = (q - n - 1) + 1 := by omega
          have h5 : q - (n + 1) = q - n - 1 := by omega
          rw [h4]
          rw [h5] at h3
          simpa using h3
      · rintro ⟨h1, h2, h3⟩
        by_cases hq : q = n
        · exact Or.inl hq
        · right
          refine ⟨by omega, by simp only [List.length_cons] at h2; omega, ?_⟩
          have h4 : q - n = (q - n - 1) + 1 := by omega
          rw [h4] at h3
          simpa using h3
    · rw [if_neg hc]
      rw [ih]
      constructor
      · rintro ⟨h1, h2, h3⟩
        refine ⟨by omega, by simp only [List.length_cons]; omega, ?_⟩
        have h4 : q - n = (q - n - 1) + 1 := by omega
        rw [h4]
        simpa using h3
      · rintro ⟨h1, h2, h3⟩
        by_cases hq : q = n
        · subst hq
          rw [Nat.sub_self] at h3
          simp only [List.getD_cons_zero] at h3
          omega
        · refine ⟨by omega, by simp only [List.length_cons] at h2; omega, ?_⟩
          have h4 : q - n = (q - n - 1) + 1 := by omega
          rw [h4] at h3
          simpa using h3

theorem enum_eq_enumFrom {α : Type} (l : List α) : l.enum = l.enumFrom 0 := rfl

/-- Membership in `enumFrom` determines the entry from the list. -/
theorem mem_enumFrom_spec (l : List Nat) (n : Nat) (p : Nat × Nat)
    (hp : p ∈ l.enumFrom n) :
    n ≤ p.1 ∧ p.1 - n < l.length ∧ l.getD (p.1 - n) 0 = p.2 := by
  induction l generalizing n with
  | nil => cases hp
  | cons c l ih =>
    simp only [List.enumFrom, List.mem_cons] at hp
    rcases hp with h | h
    · subst h
      exact ⟨Nat.le_refl _, by simp, by simp [Nat.sub_self]⟩
    · obtain ⟨h1, h2, h3⟩ := ih (n + 1) h
      refine ⟨by omega, by simp only [List.length_cons]; omega, ?_⟩
      have h4 : p.1 - n = (p.1 - n - 1) + 1 := by omega
      have h5 : p.1 - (n + 1) = p.1 - n - 1 := by omega
      rw [h4]
      rw [h5] at h3
      simpa using h3

theorem valueOf_mem {V : Type} (g : AStarGraph V) (n : Nat) (v : V)
    (h : valueOf g n = some v) : (n, v) ∈ g.values := by
  unfold valueOf at h
  cases hf : g.values.find? (fun p => p.1 == n) with
  | none => rw [hf] at h; cases h
  | some p =>
    rw [hf] at h
    obtain ⟨p1, p2⟩ := p
    have hv : p2 = v := by simpa using h
    have hp := List.mem_of_find?_eq_some hf
    have h1 : p1 = n := by simpa using List.find?_some hf
    subst hv
    subst h1
    exact hp

/-- With a well-formed value map, a successful value lookup implies the
index is a valid node index. -/
theorem valueOf_lt_length {V : Type} (g : AStarGraph V) (hwf : ValuesWf g)
    (n : Nat) (v : V) (h : valueOf g n = some v) : n < g.nodes.length :=
  hwf.2.2 (n, v) (valueOf_mem g n v h)

/-- Pushing an outgoing edge changes no cost, `prev_edge` or stats. -/
theorem pushNext_fields {V : Type} (g : AStarGraph V) (i : Nat) (e : AEdge) (j : Nat) :
    statsAt (pushNext g i e) j = statsAt g j ∧
    prevOf (pushNext g i e) j = prevOf g j ∧
    costAt (pushNext g i e) j = costAt g j := by
  unfold pushNext
  cases h : g.nodes[i]? with
  | none => exact ⟨rfl, rfl, rfl⟩
  | some nd =>
    have hlen : i < g.nodes.length := by
      by_contra hc
      rw [List.getElem?_eq_none (by omega)] at h
      cases h
    unfold statsAt prevOf costAt nodeAt
    simp only
    by_cases hij : i = j
    · subst hij
      rw [List.getElem?_set_self hlen, h]
      exact ⟨rfl, rfl, rfl⟩
    · rw [List.getElem?_set_ne hij]
      exact ⟨rfl, rfl, rfl⟩

/-- Node-level effect of a successful `add_cx`: one node is appended with
the resized-and-incremented stats and the `Op` edge as `prev_edge`; the
stats and `prev_edge` of all other nodes are untouched. -/
theorem addCx_nodes_spec {V : Type} (av : AValue V) (g : AStarGraph V) (n : Nat)
    (gate : CX) :
    (addCx av g n gate).2 = g ∨
    (∃ v, valueOf g n = some v ∧
      (addCx av g n gate).2.nodes.length = g.nodes.length + 1 ∧
      (∀ j, j ≠ g.nodes.length →
        statsAt (addCx av g n gate).2 j = statsAt g j ∧
        prevOf (addCx av g n gate).2 j = prevOf g j) ∧
      statsAt (addCx av g n gate).2 g.nodes.length =
        incrAt (incrAt (resizeTo (statsAt g n) (max gate.ctrl gate.tgt + 1)) gate.ctrl)
          gate.tgt ∧
      prevOf (addCx av g n gate).2 g.nodes.length =
        some (AEdge.Op gate n g.nodes.length)) := by
  cases hv : valueOf g n with
  | none =>
    left
    simp [addCx, hv]
  | some v =>
    by_cases hc : containsRight av g (av.cx v gate.ctrl gate.tgt) = true
    · left
      simp [addCx, hv, hc]
    · right
      refine ⟨v, rfl, ?_, ?_, ?_, ?_⟩ <;>
        simp only [addCx, hv, hc, Bool.false_eq_true, if_false]
      · rw [pushNext_nodes_length]
        simp
      · intro j hj
        rw [(pushNext_fields _ n _ j).1, (pushNext_fields _ n _ j).2.1]
        unfold statsAt prevOf nodeAt
        simp only
        by_cases hjl : j < g.nodes.length
        · rw [List.getElem?_append_left hjl]
          exact ⟨rfl, rfl⟩
        · rw [List.getElem?_eq_none (by simp only [List.length_append]; simp; omega),
            List.getElem?_eq_none (by omega)]
          exact ⟨rfl, rfl⟩
      · rw [(pushNext_fields _ n _ _).1]
        unfold statsAt nodeAt
        simp only
        rw [List.getElem?_concat_length]
        rfl
      · rw [(pushNext_fields _ n _ _).2.1]
        unfold prevOf nodeAt
        simp only
        rw [List.getElem?_concat_length]
        rfl

/-- Node-level effect of a successful `add_merge`, in the same shape. -/
theorem addMerge_nodes_spec {V : Type} (av : AValue V) (g : AStarGraph V)
    (s1 s2 : Nat) (used : List Nat) :
    (addMerge av g s1 s2 used).2 = g ∨
    (∃ v1 v2, valueOf g s1 = some v1 ∧ valueOf g s2 = some v2 ∧
      (addMerge av g s1 s2 used).2.nodes.length = g.nodes.length + 1 ∧
      (∀ j, j ≠ g.nodes.length →
        statsAt (addMerge av g s1 s2 used).2 j = statsAt g j ∧
        prevOf (addMerge av g s1 s2 used).2 j = prevOf g j) ∧
      statsAt (addMerge av g s1 s2 used).2 g.nodes.length =
        (statsAt g s2).enum.foldl (fun b p => b.set p.1 (b.getD p.1 0 + p.2))
          (resizeTo (statsAt g s1) (statsAt g s2).length) ∧
      prevOf (addMerge av g s1 s2 used).2 g.nodes.length =
        some (AEdge.Merge s1 s2 g.nodes.length)) := by
  cases hv1 : valueOf g s1 with
  | none =>
    left
    simp [addMerge, hv1]
  | some v1 =>
    cases hv2 : valueOf g s2 with
    | none =>
      left
      simp [addMerge, hv1, hv2]
    | some v2 =>
      by_cases hc : containsRight av g (av.merge v1 v2 used) = true
      · left
        simp [addMerge, hv1, hv2, hc]
      · right
        refine ⟨v1, v2, rfl, rfl, ?_, ?_, ?_, ?_⟩ <;>
          simp only [addMerge, hv1, hv2, hc, Bool.false_eq_true, if_false]
        · rw [pushNext_nodes_length, pushNext_nodes_length]
          simp
        · intro j hj
          rw [(pushNext_fields _ s2 _ j).1, (pushNext_fields _ s1 _ j).1]
          rw [(pushNext_fields _ s2 _ j).2.1, (pushNext_fields _ s1 _ j).2.1]
          unfold statsAt prevOf nodeAt
          simp only
          by_cases hjl : j < g.nodes.length
          · rw [List.getElem?_append_left hjl]
            exact ⟨rfl, rfl⟩
          · rw [List.getElem?_eq_none (by simp only [List.length_append]; simp; omega),
              List.getElem?_eq_none (by omega)]
            exact ⟨rfl, rfl⟩
        · rw [(pushNext_fields _ s2 _ _).1, (pushNext_fields _ s1 _ _).1]
          unfold statsAt nodeAt
          simp only
          rw [List.getElem?_concat_length]
          rfl
        · rw [(pushNext_fields _ s2 _ _).2.1, (pushNext_fields _ s1 _ _).2.1]
          unfold prevOf nodeAt
          simp only
          rw [List.getElem?_concat_length]
          rfl

theorem resizeTo_length (l : List Nat) (n : Nat) :
    (resizeTo l n).length = max l.length n := by
  unfold resizeTo
  split <;> simp <;> omega

theorem resizeTo_getD (l : List Nat) (n q : Nat) :
    (resizeTo l n).getD q 0 = l.getD q 0 := by
  unfold resizeTo
  split
  · by_cases hq : q < l.length
    · rw [List.getD_eq_getElem?_getD, List.getElem?_append_left hq,
        ← List.getD_eq_getElem?_getD]
    · rw [List.getD_eq_getElem?_getD, List.getD_eq_getElem?_getD]
      by_cases hq2 : q < l.length + (n - l.length)
      · rw [List.getElem?_append_right (by omega)]
        have hrep : (List.replicate (n - l.length) 0)[q - l.length]? = some 0 := by
          rw [List.getElem?_eq_getElem (by rw [List.length_replicate]; omega)]
          simp
        rw [hrep, List.getElem?_eq_none (by omega)]
        rfl
      · rw [List.getElem?_eq_none (by simp; omega), List.getElem?_eq_none (by omega)]
  · rfl

theorem statsLe_resizeTo (l : List Nat) (n : Nat) : statsLe l (resizeTo l n) := by
  refine ⟨?_, fun q => ?_⟩
  · rw [resizeTo_length]
    omega
  · rw [resizeTo_getD]

theorem incrAt_length (l : List Nat) (i : Nat) : (incrAt l i).length = l.length := by
  unfold incrAt
  simp

theorem incrAt_getD (l : List Nat) (i q : Nat) :
    (incrAt l i).getD q 0 = if q = i ∧ i < l.length then l.getD q 0 + 1 else l.getD q 0 := by
  unfold incrAt
  by_cases hqi : q = i
  · subst hqi
    by_cases hlt : q < l.length
    · rw [if_pos ⟨rfl, hlt⟩]
      rw [List.getD_eq_getElem?_getD, List.getElem?_set_self hlt]
      rfl
    · rw [if_neg (by omega)]
      rw [List.getD_eq_getElem?_getD, List.getD_eq_getElem?_getD, List.set_eq_of_length_le]
      omega
  · rw [if_neg (by tauto)]
    rw [List.getD_eq_getElem?_getD, List.getElem?_set_ne (by omega),
      ← List.getD_eq_getElem?_getD]

theorem statsLe_incrAt (l : List Nat) (i : Nat) : statsLe l (incrAt l i) := by
  refine ⟨by rw [incrAt_length], fun q => ?_⟩
  rw [incrAt_getD]
  split <;> omega

/-- The structural stats invariant: sources of recorded `prev_edge`s are
valid indices, and stats are pointwise monotone from parent to child. -/
def StatsInv {V : Type} (g : AStarGraph V) : Prop :=
  (∀ b e, prevOf g b = some e → ∀ s ∈ e.srcs, s < g.nodes.length) ∧
  (∀ p b, parentOf g p b → statsLe (statsAt g p) (statsAt g b))

/-- Stats of the child created by `add_cx` dominate the parent's stats. -/
theorem statsLe_cx_child (s : List Nat) (c t m : Nat) :
    statsLe s (incrAt (incrAt (resizeTo s m) c) t) :=
  statsLe_trans (statsLe_resizeTo s m)
    (statsLe_trans (statsLe_incrAt _ c) (statsLe_incrAt _ t))

/-- Stats of the child created by `add_merge` dominate both parents'. -/
theorem statsLe_merge_child (s1 s2 : List Nat) :
    statsLe s1 ((s2.enum.foldl (fun b p => b.set p.1 (b.getD p.1 0 + p.2))
      (resizeTo s1 s2.length))) ∧
    statsLe s2 ((s2.enum.foldl (fun b p => b.set p.1 (b.getD p.1 0 + p.2))
      (resizeTo s1 s2.length))) := by
  have hbase := resizeTo_length s1 s2.length
  have hlen := setFold_length (fun a b => a + b) s2 (resizeTo s1 s2.length) 0
  constructor
  · refine ⟨by rw [enum_eq_enumFrom, hlen]; omega, fun q => ?_⟩
    rw [enum_eq_enumFrom, setFold_getD (fun a b => a + b) s2 (resizeTo s1 s2.length) 0 q]
    split
    · rw [resizeTo_getD]
      omega
    · rw [resizeTo_getD]
  · refine ⟨by rw [enum_eq_enumFrom, hlen]; omega, fun q => ?_⟩
    rw [enum_eq_enumFrom, setFold_getD (fun a b => a + b) s2 (resizeTo s1 s2.length) 0 q]
    by_cases hq : q < s2.length
    · rw [if_pos ⟨by omega, by omega, by omega⟩]
      rw [resizeTo_getD]
      simp only [Nat.sub_zero]
      omega
    · have hz : s2.getD q 0 = 0 := by
        rw [List.getD_eq_getElem?_getD, List.getElem?_eq_none (by omega)]
        rfl
      rw [hz]
      omega

/-- The stats invariant holds on every graph reachable by add operations. -/
theorem reachAdd_statsInv {V : Type} (av : AValue V) (start : V) (moves : List CX)
    (hb : LawfulBeqV av) (g : AStarGraph V) (hr : ReachAdd av start moves g) :
    StatsInv g := by
  induction hr with
  | base =>
    constructor
    · intro b e he
      cases b with
      | zero => cases he
      | succ b =>
        unfold prevOf nodeAt newGraph at he
        rw [List.getElem?_eq_none (by simp)] at he
        cases he
    · intro p b ⟨e, he, _⟩
      cases b with
      | zero => cases he
      | succ b =>
        unfold prevOf nodeAt newGraph at he
        rw [List.getElem?_eq_none (by simp)] at he
        cases he
  | cx g n gate hg ih =>
    rcases addCx_nodes_spec av g n gate with heq | ⟨v, hv, hlen, hframe, hstats, hprev⟩
    · rw [heq]
      exact ih
    · have hwf := reachAdd_valuesWf av start moves hb g hg
      have hn := valueOf_lt_length g hwf n v hv
      constructor
      · intro b e he s hs
        by_cases hbl : b = g.nodes.length
        · subst hbl
          rw [hprev] at he
          cases he
          simp only [AEdge.srcs, List.mem_singleton] at hs
          omega
        · rw [(hframe b hbl).2 ] at he
          have := ih.1 b e he s hs
          omega
      · intro p b ⟨e, he, hs⟩
        by_cases hbl : b = g.nodes.length
        · subst hbl
          rw [hprev] at he
          cases he
          simp only [AEdge.srcs, List.mem_singleton] at hs
          subst hs
          rw [(hframe p (by omega)).1, hstats]
          exact statsLe_cx_child _ _ _ _
        · rw [(hframe b hbl).2] at he
          have hpl : p < g.nodes.length := ih.1 b e he p hs
          rw [(hframe p (by omega)).1, (hframe b hbl).1]
          exact ih.2 p b ⟨e, he, hs⟩
  | merge g s1 s2 used hg ih =>
    rcases addMerge_nodes_spec av g s1 s2 used with heq |
      ⟨v1, v2, hv1, hv2, hlen, hframe, hstats, hprev⟩
    · rw [heq]
      exact ih
    · have hwf := reachAdd_valuesWf av start moves hb g hg
      have hs1 := valueOf_lt_length g hwf s1 v1 hv1
      have hs2 := valueOf_lt_length g hwf s2 v2 hv2
      constructor
      · intro b e he s hs
        by_cases hbl : b = g.nodes.length
        · subst hbl
          rw [hprev] at he
          cases he
          simp only [AEdge.srcs, List.mem_cons, List.not_mem_nil, or_false] at hs
          rcases hs with h | h <;> omega
        · rw [(hframe b hbl).2] at he
          have := ih.1 b e he s hs
          omega
      · intro p b ⟨e, he, hs⟩
        by_cases hbl : b = g.nodes.length
        · subst hbl
          rw [hprev] at he
          cases he
          simp only [AEdge.srcs, List.mem_cons, List.not_mem_nil, or_false] at hs
          have hple : p < g.nodes.length := by rcases hs with h | h <;> omega
          rw [(hframe p (by omega)).1, hstats]
          rcases hs with h | h
          · subst h
            exact (statsLe_merge_child _ _).1
          · subst h
            exact (statsLe_merge_child _ _).2
        · rw [(hframe b hbl).2] at he
          have hpl : p < g.nodes.length := ih.1 b e he p hs
          rw [(hframe p (by omega)).1, (hframe b hbl).1]
          exact ih.2 p b ⟨e, he, hs⟩

/-- Stats are pointwise monotone along any ancestor path. -/
theorem ancPath_statsLe {V : Type} (g : AStarGraph V) (hinv : StatsInv g)
    {a b : Nat} (ha : AncPath g a b) : statsLe (statsAt g a) (statsAt g b) := by
  induction ha with
  | refl => exact statsLe_refl _
  | step p b hanc hpar ih => exact statsLe_trans ih (hinv.2 _ _ hpar)

/-- Claim C6: on every reachable graph, for every pair `(a, b)` with `a`
on the `prev_edge` ancestor path of `b`, `disallowed_qubits(a, b)`
succeeds — no counter underflow, no out-of-bounds index on the stats
vectors — and returns exactly the qubits whose CX count in `b.stats`
strictly exceeds their count in `a.stats`. -/
theorem disallowed_qubits_spec {V : Type} (av : AValue V) (start : V) (moves : List CX)
    (hb : LawfulBeqV av) (g : AStarGraph V) (hr : ReachAdd av start moves g)
    (a b : Nat) (ha : AncPath g a b) :
    ∃ s, disallowedQubitsOpt g a b = some s ∧
      ∀ q, (q ∈ s ↔ (statsAt g a).getD q 0 < (statsAt g b).getD q 0) := by
  have hle := ancPath_statsLe g (reachAdd_statsInv av start moves hb g hr) ha
  have hguard : ((statsAt g a).enum.all (fun p =>
      decide (p.1 < (statsAt g b).length) &&
      decide (p.2 ≤ (statsAt g b).getD p.1 0))) = true := by
    apply List.all_eq_true.mpr
    intro p hp
    rw [enum_eq_enumFrom] at hp
    obtain ⟨h1, h2, h3⟩ := mem_enumFrom_spec _ 0 p hp
    simp only [Nat.sub_zero] at h2 h3
    have hlt : p.1 < (statsAt g b).length := by
      have := hle.1
      omega
    have hle2 : p.2 ≤ (statsAt g b).getD p.1 0 := by
      rw [← h3]
      exact hle.2 p.1
    rw [Bool.and_eq_true, decide_eq_true_eq, decide_eq_true_eq]
    exact ⟨hlt, hle2⟩
  refine ⟨((((statsAt g a).enumFrom 0).foldl
      (fun c p => c.set p.1 (c.getD p.1 0 - p.2)) (statsAt g b)).enumFrom 0).filterMap
      (fun p => if 0 < p.2 then some p.1 else none), ?_, ?_⟩
  · simp only [disallowedQubitsOpt]
    rw [hguard, if_pos rfl]
    rfl
  · intro q
    rw [mem_enumFrom_filterMap_pos]
    have hlenS := setFold_length (fun x y => x - y) (statsAt g a) (statsAt g b) 0
    have hgetS := setFold_getD (fun x y => x - y) (statsAt g a) (statsAt g b) 0 q
    simp only [Nat.sub_zero] at hlenS hgetS
    have hza : ∀ k, (statsAt g a).length ≤ k → (statsAt g a).getD k 0 = 0 := by
      intro k hk
      rw [List.getD_eq_getElem?_getD, List.getElem?_eq_none hk]
      rfl
    have hzb : ∀ k, (statsAt g b).length ≤ k → (statsAt g b).getD k 0 = 0 := by
      intro k hk
      rw [List.getD_eq_getElem?_getD, List.getElem?_eq_none hk]
      rfl
    simp only [Nat.sub_zero]
    rw [hlenS, hgetS]
    by_cases hq : q < (statsAt g a).length
    · rw [if_pos ⟨by omega, hq, by have := hle.1; omega⟩]
      have := hle.1
      constructor
      · intro h
        omega
      · intro h
        refine ⟨by omega, by omega, by omega⟩
    · rw [if_neg (by omega)]
      have h0 := hza q (by omega)
      by_cases hqb : q < (statsAt g b).length
      · constructor
        · intro h
          omega
        · intro h
          exact ⟨by omega, hqb, by omega⟩
      · have hb0 := hzb q (by omega)
        constructor
        · intro h
          omega
        · intro h
          omega

/-- Claim C6 witness: on the concrete two-node reachable graph (root plus
one `add_cx(0, CX(0,1))` child), the root lies on the child's ancestor
path, and `disallowed_qubits(root, child)` succeeds with the qubit set
characterized by the stats difference. -/
theorem disallowed_qubits_spec_witness :
    ∃ s, disallowedQubitsOpt (addCx avNatFresh (newGraph 0 []) 0 ⟨0, 1⟩).2 0 1 = some s ∧
      ∀ q, (q ∈ s ↔
        (statsAt (addCx avNatFresh (newGraph 0 []) 0 ⟨0, 1⟩).2 0).getD q 0 <
        (statsAt (addCx avNatFresh (newGraph 0 []) 0 ⟨0, 1⟩).2 1).getD q 0) :=
  disallowed_qubits_spec avNatFresh 0 [] lawfulBeq_avNatFresh _
    (ReachAdd.cx _ 0 ⟨0, 1⟩ ReachAdd.base) 0 1
    (AncPath.step 0 0 1 (AncPath.refl 0)
      ⟨AEdge.Op ⟨0, 1⟩ 0 1, by rfl, by simp [AEdge.srcs]⟩)

/-! ### One step of the breadth-first search (src/bfs.rs)

`CircMoves<T> = FxHashMap<T, usize>` is modelled as an association list in
insertion order; `insert` overwrites the value of an existing key in place
and appends a fresh key at the end, as a hash map does. -/

def cmLookup {T : Type} [DecidableEq T] (m : List (T × Nat)) (c : T) : Option Nat :=
  match m with
  | [] => none
  | p :: rest => if p.1 = c then some p.2 else cmLookup rest c

def cmContains {T : Type} [DecidableEq T] (m : List (T × Nat)) (c : T) : Bool :=
  (cmLookup m c).isSome

def cmInsert {T : Type} [DecidableEq T] (m : List (T × Nat)) (k : T) (v : Nat) :
    List (T × Nat) :=
  if cmContains m k then m.map (fun p => if p.1 = k then (k, v) else p)
  else m ++ [(k, v)]

/-- `apply_moves` (src/bfs.rs lines 166-177): every circuit times the
transpose of every move, tagged with the move index. `multT` abstracts
`T::mult_transpose`. -/
def applyMoves {T : Type} (multT : T → T → T) (circs moves : List T) :
    List (Nat × T) :=
  circs.bind (fun circ => moves.enum.map (fun q => (q.1, multT circ q.2)))

/-- `collect_moves` (src/bfs.rs lines 179-196): insert each retained
product into a fresh map, keyed by the circuit, valued by the move index. -/
def collectMoves {T : Type} [DecidableEq T] (multT : T → T → T)
    (circs moves : List T) (retainF : T → Bool) : List (T × Nat) :=
  (applyMoves multT circs moves).foldl
    (fun a q => if retainF q.2 then cmInsert a q.2 q.1 else a) []

def curLayer {T : Type} (layers : List (List (T × Nat))) : List (T × Nat) :=
  layers.getD (layers.length - 1) []

def prevLayer {T : Type} (layers : List (List (T × Nat))) : List (T × Nat) :=
  if 1 < layers.length then layers.getD (layers.length - 2) [] else []

/-- `BFS::step` (src/bfs.rs lines 27-43): the new layer built from the
current frontier; `frontiers` is the most recent layer plus, past depth 1,
the one before it, and a product is retained when no frontier contains it. -/
def bfsStep {T : Type} [DecidableEq T] (multT : T → T → T)
    (layers : List (List (T × Nat))) (moves : List T) : List (T × Nat) :=
  collectMoves multT ((curLayer layers).map Prod.fst) moves
    (fun circ => !(cmContains (curLayer layers) circ || cmContains (prevLayer layers) circ))

theorem cmLookup_map_ne {T : Type} [DecidableEq T] (m : List (T × Nat)) (k c : T) (v : Nat)
    (hck : c ≠ k) :
    cmLookup (m.map (fun p => if p.1 = k then (k, v) else p)) c = cmLookup m c := by
  induction m with
  | nil => rfl
  | cons p rest ih =>
    simp only [List.map_cons, cmLookup]
    by_cases hp : p.1 = k
    · rw [if_pos hp]
      simp only [cmLookup]
      rw [if_neg (fun h => hck h.symm), if_neg (fun h => hck (hp ▸ h).symm)]
      exact ih
    · rw [if_neg hp]
      by_cases hpc : p.1 = c
      · rw [if_pos hpc, if_pos hpc]
      · rw [if_neg hpc, if_neg hpc]
        exact ih

theorem cmLookup_map_eq {T : Type} [DecidableEq T] (m : List (T × Nat)) (k : T) (v : Nat)
    (hc : cmContains m k = true) :
    cmLookup (m.map (fun p => if p.1 = k then (k, v) else p)) k = some v := by
  induction m with
  | nil => exact Bool.noConfusion hc
  | cons p rest ih =>
    rw [List.map_cons]
    by_cases hp : p.1 = k
    · rw [if_pos hp]
      simp [cmLookup]
    · rw [if_neg hp]
      simp only [cmLookup]
      rw [if_neg hp]
      apply ih
      simp only [cmContains, cmLookup, if_neg hp] at hc ⊢
      exact hc

theorem cmLookup_append_single {T : Type} [DecidableEq T] (m : List (T × Nat)) (k c : T)
    (v : Nat) (hnk : cmLookup m k = none) :
    cmLookup (m ++ [(k, v)]) c = if c = k then some v else cmLookup m c := by
  induction m with
  | nil =>
    simp only [List.nil_append, cmLookup]
    by_cases hck : c = k
    · rw [if_pos hck.symm, if_pos hck]
    · rw [if_neg (fun h => hck h.symm), if_neg hck]
  | cons p rest ih =>
    simp only [List.cons_append, cmLookup]
    by_cases hp : p.1 = k
    · rw [cmLookup, if_pos hp] at hnk
      cases hnk
    · rw [cmLookup, if_neg hp] at hnk
      by_cases hpc : p.1 = c
      · rw [if_pos hpc, if_neg (fun h => hp (hpc.trans h)), if_pos hpc]
      · rw [if_neg hpc, if_neg hpc]
        exact ih hnk

theorem cmLookup_insert {T : Type} [DecidableEq T] (m : List (T × Nat)) (k c : T) (v : Nat) :
    cmLookup (cmInsert m k v) c = if c = k then some v else cmLookup m c := by
  unfold cmInsert
  by_cases hc : cmContains m k = true
  · rw [if_pos hc]
    by_cases hck : c = k
    · subst hck
      rw [if_pos rfl]
      exact cmLookup_map_eq m c v hc
    · rw [if_neg hck]
      exact cmLookup_map_ne m k c v hck
  · rw [if_neg hc]
    apply cmLookup_append_single
    rcases hlk : cmLookup m k with _ | x
    · rfl
    · exact absurd (by unfold cmContains; rw [hlk]; rfl) hc

theorem cmContains_insert {T : Type} [DecidableEq T] (m : List (T × Nat)) (k c : T) (v : Nat) :
    cmContains (cmInsert m k v) c = (decide (c = k) || cmContains m c) := by
  simp only [cmContains, cmLookup_insert]
  by_cases hck : c = k
  · rw [if_pos hck, decide_eq_true hck]
    rfl
  · rw [if_neg hck, decide_eq_false hck, Bool.false_or]

theorem collectFold_contains {T : Type} [DecidableEq T] (retainF : T → Bool)
    (l : List (Nat × T)) (acc : List (T × Nat)) (c : T) :
    cmContains (l.foldl (fun a q => if retainF q.2 then cmInsert a q.2 q.1 else a) acc) c =
      (cmContains acc c || (retainF c && l.any (fun q => decide (q.2 = c)))) := by
  induction l generalizing acc with
  | nil => simp
  | cons q l ih =>
    simp only [List.foldl_cons, List.any_cons]
    by_cases hr : retainF q.2 = true
    · rw [if_pos hr, ih, cmContains_insert]
      by_cases hq : q.2 = c
      · subst hq
        simp [hr]
      · simp [hq, Ne.symm hq]
    · rw [if_neg hr, ih]
      by_cases hq : q.2 = c
      · subst hq
        rw [Bool.not_eq_true] at hr
        simp [hr]
      · simp [hq]

theorem collectFold_lookup {T : Type} [DecidableEq T] (retainF : T → Bool)
    (l : List (Nat × T)) (acc : List (T × Nat)) (c : T) (i : Nat)
    (h : cmLookup (l.foldl (fun a q => if retainF q.2 then cmInsert a q.2 q.1 else a) acc) c
      = some i) :
    ((i, c) ∈ l ∧ retainF c = true) ∨ cmLookup acc c = some i := by
  induction l generalizing acc with
  | nil => exact Or.inr h
  | cons q l ih =>
    simp only [List.foldl_cons] at h
    by_cases hr : retainF q.2 = true
    · rw [if_pos hr] at h
      rcases ih _ h with hmem | hlook
      · exact Or.inl ⟨List.mem_cons_of_mem _ hmem.1, hmem.2⟩
      · rw [cmLookup_insert] at hlook
        by_cases hq : c = q.2
        · rw [if_pos hq] at hlook
          obtain rfl : q.1 = i := Option.some.inj hlook
          subst hq
          exact Or.inl ⟨List.mem_cons_self q l, hr⟩
        · rw [if_neg hq] at hlook
          exact Or.inr hlook
    · rw [if_neg hr] at h
      rcases ih _ h with hmem | hlook
      · exact Or.inl ⟨List.mem_cons_of_mem _ hmem.1, hmem.2⟩
      · exact Or.inr hlook

theorem mem_enumFrom_iff {α : Type} (l : List α) (n i : Nat) (a : α) :
    (i, a) ∈ l.enumFrom n ↔ n ≤ i ∧ l[i - n]? = some a := by
  induction l generalizing n with
  | nil => simp [List.enumFrom]
  | cons c l ih =>
    simp only [List.enumFrom, List.mem_cons, ih]
    constructor
    · rintro (h | ⟨h1, h2⟩)
      · obtain ⟨rfl, rfl⟩ := Prod.mk.injEq i a n c ▸ h
        exact ⟨Nat.le_refl _, by simp⟩
      · refine ⟨by omega, ?_⟩
        have hd : i - n = (i - (n + 1)) + 1 := by omega
        rw [hd]
        simpa using h2
    · rintro ⟨h1, h2⟩
      by_cases hin : i = n
      · subst hin
        rw [Nat.sub_self] at h2
        simp only [List.getElem?_cons_zero] at h2
        left
        rw [Option.some.inj h2]
      · right
        refine ⟨by omega, ?_⟩
        have hd : i - n = (i - (n + 1)) + 1 := by omega
        rw [hd] at h2
        simpa using h2

theorem mem_applyMoves {T : Type} (multT : T → T → T) (circs moves : List T) (i : Nat)
    (c : T) :
    (i, c) ∈ applyMoves multT circs moves ↔
      ∃ x ∈ circs, ∃ mv, moves[i]? = some mv ∧ c = multT x mv := by
  simp only [applyMoves, List.mem_bind, List.mem_map]
  constructor
  · rintro ⟨x, hx, q, hq, heq⟩
    have h1 : q.1 = i := congrArg Prod.fst heq
    have h2 : multT x q.2 = c := congrArg Prod.snd heq
    rw [enum_eq_enumFrom] at hq
    have hq' := (mem_enumFrom_iff moves 0 q.1 q.2).mp hq
    refine ⟨x, hx, q.2, ?_, h2.symm⟩
    rw [← h1]
    simpa using hq'.2
  · rintro ⟨x, hx, mv, hmv, rfl⟩
    refine ⟨x, hx, (i, mv), ?_, rfl⟩
    rw [enum_eq_enumFrom]
    exact (mem_enumFrom_iff moves 0 i mv).mpr ⟨Nat.zero_le _, by simpa using hmv⟩

theorem collectMoves_contains {T : Type} [DecidableEq T] (multT : T → T → T)
    (circs moves : List T) (retainF : T → Bool) (c : T) :
    cmContains (collectMoves multT circs moves retainF) c =
      (retainF c && (applyMoves multT circs moves).any (fun q => decide (q.2 = c))) := by
  rw [collectMoves, collectFold_contains]
  rfl

theorem collectMoves_lookup {T : Type} [DecidableEq T] (multT : T → T → T)
    (circs moves : List T) (retainF : T → Bool) (c : T) (i : Nat)
    (h : cmLookup (collectMoves multT circs moves retainF) c = some i) :
    (i, c) ∈ applyMoves multT circs moves ∧ retainF c = true := by
  rw [collectMoves] at h
  rcases collectFold_lookup _ _ _ _ _ h with hmem | h0
  · exact hmem
  · cases h0

/-- Claim C7: one BFS step produces as the new layer exactly the circuits
`circ.mult_transpose(move)` for `circ` in the most recent layer and `move`
among the allowed moves, excluding anything already in the most recent
layer or the one before it; and every move index recorded for a retained
circuit is the index of a move that actually produces it from some circuit
of the most recent layer. -/
theorem bfs_step_spec {T : Type} [DecidableEq T] (multT : T → T → T)
    (layers : List (List (T × Nat))) (moves : List T) (c : T) :
    (cmContains (bfsStep multT layers moves) c = true ↔
      ((∃ x ∈ (curLayer layers).map Prod.fst, ∃ mv ∈ moves, c = multT x mv) ∧
        cmContains (curLayer layers) c = false ∧
        cmContains (prevLayer layers) c = false)) ∧
    (∀ i, cmLookup (bfsStep multT layers moves) c = some i →
      ∃ x ∈ (curLayer layers).map Prod.fst, ∃ mv, moves[i]? = some mv ∧ c = multT x mv) := by
  constructor
  · rw [bfsStep, collectMoves_contains]
    rw [Bool.and_eq_true, Bool.not_eq_true', Bool.or_eq_false_iff, List.any_eq_true]
    constructor
    · rintro ⟨⟨hcur, hprev⟩, q, hq, hqc⟩
      rw [decide_eq_true_eq] at hqc
      have hmem : (q.1, c) ∈ applyMoves multT ((curLayer layers).map Prod.fst) moves := by
        rw [← hqc]
        exact hq
      obtain ⟨x, hx, mv, hmv, hc⟩ := (mem_applyMoves _ _ _ _ _).mp hmem
      refine ⟨⟨x, hx, mv, ?_, hc⟩, hcur, hprev⟩
      exact List.getElem?_mem hmv
    · rintro ⟨⟨x, hx, mv, hmv, rfl⟩, hcur, hprev⟩
      obtain ⟨i, hi⟩ := List.mem_iff_getElem?.mp hmv
      refine ⟨⟨hcur, hprev⟩, (i, multT x mv), ?_, by simp⟩
      exact (mem_applyMoves _ _ _ _ _).mpr ⟨x, hx, mv, hi, rfl⟩
  · intro i h
    rw [bfsStep] at h
    obtain ⟨hmem, _⟩ := collectMoves_lookup _ _ _ _ _ _ h
    exact (mem_applyMoves _ _ _ _ _).mp hmem

/-- Claim C7 witness: over `T = Nat` with product `x + mv`, layers
`[[(0, 999)]]` and moves `[10]`, the recorded index 0 for circuit 10 is
produced by circuit 0 of the current layer under move 10. -/
theorem bfs_step_spec_witness :
    ∃ x ∈ (curLayer [[(0, 999)]]).map Prod.fst, ∃ mv, [10][(0 : Nat)]? = some mv ∧
      10 = x + mv :=
  (bfs_step_spec (fun a b => a + b) [[(0, 999)]] [10] 10).2 0 (by rfl)

/-! ### Claim C10: the root is never compared against the target -/

theorem reachAdd_foldl {V α : Type} (av : AValue V) (start : V) (moves : List CX)
    (f : AStarGraph V → α → AStarGraph V)
    (hf : ∀ g a, ReachAdd av start moves g → ReachAdd av start moves (f g a)) :
    ∀ (l : List α) (g : AStarGraph V), ReachAdd av start moves g →
      ReachAdd av start moves (l.foldl f g) := by
  intro l
  induction l with
  | nil => intro g hg; exact hg
  | cons a l ih =>
    intro g hg
    rw [List.foldl_cons]
    exact ih (f g a) (hf g a hg)

theorem nextOf_pushNext_mem {V : Type} (g : AStarGraph V) (i : Nat) (ed : AEdge)
    (j : Nat) (e : AEdge) (he : e ∈ nextOf (pushNext g i ed) j) :
    e ∈ nextOf g j ∨ e = ed := by
  unfold pushNext at he
  cases h : g.nodes[i]? with
  | none =>
    rw [h] at he
    exact Or.inl he
  | some nd =>
    rw [h] at he
    unfold nextOf nodeAt at he ⊢
    simp only at he
    by_cases hij : i = j
    · subst hij
      have hlen : i < g.nodes.length := by
        by_contra hc
        rw [List.getElem?_eq_none (by omega)] at h
        cases h
      rw [List.getElem?_set_self hlen] at he
      simp only [Option.map_some', Option.getD_some] at he
      rcases List.mem_append.mp he with h1 | h1
      · left
        rw [h]
        exact h1
      · right
        simpa using h1
    · rw [List.getElem?_set_ne hij] at he
      exact Or.inl he

theorem nextOf_mem_of_nodes_append {V : Type} (g gp : AStarGraph V) (nd : ANode)
    (hn : gp.nodes = g.nodes ++ [nd]) (j : Nat) (e : AEdge) (he : e ∈ nextOf gp j) :
    e ∈ nextOf g j ∨ e ∈ nd.next := by
  unfold nextOf nodeAt at he ⊢
  rw [hn] at he
  by_cases hj : j < g.nodes.length
  · rw [List.getElem?_append_left hj] at he
    exact Or.inl he
  · by_cases hj2 : j = g.nodes.length
    · subst hj2
      rw [List.getElem?_concat_length] at he
      right
      simpa using he
    · rw [List.getElem?_eq_none
        (by simp only [List.length_append, List.length_singleton]; omega)] at he
      simp at he

theorem addCx_next_mem {V : Type} (av : AValue V) (g : AStarGraph V) (n : Nat)
    (gate : CX) (j : Nat) (e : AEdge) (he : e ∈ nextOf (addCx av g n gate).2 j) :
    e ∈ nextOf g j ∨ AEdge.dst e = g.nodes.length := by
  cases hv : valueOf g n with
  | none =>
    simp only [addCx, hv] at he
    exact Or.inl he
  | some v =>
    by_cases hc : containsRight av g (av.cx v gate.ctrl gate.tgt) = true
    · simp only [addCx, hv, hc, if_true] at he
      exact Or.inl he
    · simp only [addCx, hv, hc, Bool.false_eq_true, if_false] at he
      rcases nextOf_pushNext_mem _ _ _ _ _ he with h1 | h1
      · rcases nextOf_mem_of_nodes_append g _ _ rfl j e h1 with h2 | h2
        · exact Or.inl h2
        · cases h2
      · right
        rw [h1]
        rfl

theorem addMerge_next_mem {V : Type} (av : AValue V) (g : AStarGraph V)
    (s1 s2 : Nat) (used : List Nat) (j : Nat) (e : AEdge)
    (he : e ∈ nextOf (addMerge av g s1 s2 used).2 j) :
    e ∈ nextOf g j ∨ AEdge.dst e = g.nodes.length := by
  cases hv1 : valueOf g s1 with
  | none =>
    simp only [addMerge, hv1] at he
    exact Or.inl he
  | some v1 =>
    cases hv2 : valueOf g s2 with
    | none =>
      simp only [addMerge, hv1, hv2] at he
      exact Or.inl he
    | some v2 =>
      by_cases hc : containsRight av g (av.merge v1 v2 used) = true
      · simp only [addMerge, hv1, hv2, hc, if_true] at he
        exact Or.inl he
      · simp only [addMerge, hv1, hv2, hc, Bool.false_eq_true, if_false] at he
        rcases nextOf_pushNext_mem _ _ _ _ _ he with h1 | h1
        · rcases nextOf_pushNext_mem _ _ _ _ _ h1 with h2 | h2
          · rcases nextOf_mem_of_nodes_append g _ _ rfl j e h2 with h3 | h3
            · exact Or.inl h3
            · cases h3
          · right
            rw [h2]
            rfl
        · right
          rw [h1]
          rfl

theorem reachAdd_nodes_pos {V : Type} (av : AValue V) (start : V) (moves : List CX)
    (g : AStarGraph V) (hr : ReachAdd av start moves g) : 1 ≤ g.nodes.length := by
  induction hr with
  | base => exact Nat.le_refl 1
  | cx g n gate _ ih =>
    rcases addCx_evolution av g n gate with ⟨_, hn⟩ | ⟨w, _, _, hn⟩ <;> omega
  | merge g s1 s2 used _ ih =>
    rcases addMerge_evolution av g s1 s2 used with ⟨_, hn⟩ | ⟨w, _, _, hn⟩ <;> omega

theorem reachAdd_dst_ne_root {V : Type} (av : AValue V) (start : V) (moves : List CX)
    (g : AStarGraph V) (hr : ReachAdd av start moves g) :
    ∀ j, ∀ e ∈ nextOf g j, AEdge.dst e ≠ 0 := by
  induction hr with
  | base =>
    intro j e he
    rcases j with _ | j <;> simp [nextOf, nodeAt, newGraph, newRootNode] at he
  | cx g n gate hr ih =>
    intro j e he
    rcases addCx_next_mem av g n gate j e he with h1 | h1
    · exact ih j e h1
    · have := reachAdd_nodes_pos av start moves g hr
      omega
  | merge g s1 s2 used hr ih =>
    intro j e he
    rcases addMerge_next_mem av g s1 s2 used j e he with h1 | h1
    · exact ih j e h1
    · have := reachAdd_nodes_pos av start moves g hr
      omega

theorem reachAdd_root_value {V : Type} (av : AValue V) (start : V) (moves : List CX)
    (g : AStarGraph V) (hr : ReachAdd av start moves g) : (0, start) ∈ g.values := by
  induction hr with
  | base => exact List.mem_singleton.mpr rfl
  | cx g n gate _ ih =>
    rcases addCx_evolution av g n gate with ⟨hv, _⟩ | ⟨w, _, hv, _⟩ <;> rw [hv]
    · exact ih
    · exact List.mem_append_left _ ih
  | merge g s1 s2 used _ ih =>
    rcases addMerge_evolution av g s1 s2 used with ⟨hv, _⟩ | ⟨w, _, hv, _⟩ <;> rw [hv]
    · exact ih
    · exact List.mem_append_left _ ih

theorem reachAdd_value_start_is_root {V : Type} (av : AValue V) (start : V)
    (moves : List CX) (hb : LawfulBeqV av) (g : AStarGraph V)
    (hr : ReachAdd av start moves g) (c : Nat) (v : V)
    (hv : valueOf g c = some v) (hbeq : av.beq v start = true) : c = 0 := by
  have hvs : v = start := (hb v start).mp hbeq
  subst hvs
  have hmem := valueOf_mem g c v hv
  have hroot := reachAdd_root_value av v moves g hr
  obtain ⟨_, h2, _⟩ := reachAdd_valuesWf av v moves hb g hr
  have hpq := List.inj_on_of_nodup_map h2 hmem hroot (rfl : ((c, v) : Nat × V).2 = ((0, v) : Nat × V).2)
  exact congrArg Prod.fst hpq

theorem reachAdd_if_merge {V : Type} (av : AValue V) (start : V) (moves : List CX)
    (g1 : AStarGraph V) (ind : Nat) (f : Nat → Bool)
    (h : ReachAdd av start moves g1) :
    ReachAdd av start moves (if isMergeable g1 ind f then
      (findMergeableNodes g1 ind).foldl (fun h2 p => (addMerge av h2 ind p.1 p.2).2) g1
    else g1) := by
  by_cases hm : isMergeable g1 ind f = true
  · rw [if_pos hm]
    exact reachAdd_foldl av start moves _
      (fun g2 p hg2 => ReachAdd.merge g2 ind p.1 p.2 hg2) _ g1 h
  · rw [if_neg hm]
    exact h

theorem reachAdd_expandChildren {V : Type} (av : AValue V) (start : V)
    (moves : List CX) (g : AStarGraph V) (ind : Nat) (f : Nat → Bool)
    (hg : ReachAdd av start moves g) :
    ReachAdd av start moves (expandChildren av g ind f) := by
  unfold expandChildren
  refine reachAdd_if_merge av start moves _ ind f ?_
  split
  · exact reachAdd_foldl av start moves _
      (fun g2 cx hg2 => ReachAdd.cx g2 ind cx hg2) _ g hg
  · split
    · refine reachAdd_foldl av start moves _ ?_ _ g hg
      intro g2 p hg2
      dsimp only
      by_cases h1 : (CX.mk p.1 p.2) ∈ g.allowedMoves
      · rw [if_pos h1]
        by_cases h2 : (CX.mk p.2 p.1) ∈ g.allowedMoves
        · rw [if_pos h2]
          exact ReachAdd.cx _ ind _ (ReachAdd.cx _ ind _ hg2)
        · rw [if_neg h2]
          exact ReachAdd.cx _ ind _ hg2
      · rw [if_neg h1]
        by_cases h2 : (CX.mk p.2 p.1) ∈ g.allowedMoves
        · rw [if_pos h2]
          exact ReachAdd.cx _ ind _ hg2
        · rw [if_neg h2]
          exact hg2
    · exact hg
  · exact reachAdd_foldl av start moves _
      (fun g2 cx hg2 => ReachAdd.cx g2 ind cx hg2) _ g hg

theorem drvFold_none {V : Type} (av : AValue V) (target : V) (g : AStarGraph V)
    (children : List Nat) :
    (∀ c ∈ children,
      (match valueOf g c with | some v => av.beq v target | none => false) = false) →
    ∀ pq, (children.foldl (drvChildStep av target g) (none, pq)).1 = none := by
  induction children with
  | nil => intro _ pq; rfl
  | cons c cs ih =>
    intro h pq
    rw [List.foldl_cons]
    have hc := h c (List.mem_cons_self c cs)
    have h1 : (drvChildStep av target g (none, pq) c).1 = none := by
      unfold drvChildStep
      rw [hc]
      rfl
    have hpair : drvChildStep av target g (none, pq) c =
        (none, (drvChildStep av target g (none, pq) c).2) := Prod.ext h1 rfl
    rw [hpair]
    exact ih (fun d hd => h d (List.mem_cons_of_mem _ hd)) _

theorem aStarLoop_no_solution {V : Type} (av : AValue V) (start : V) (moves : List CX)
    (hb : LawfulBeqV av) (maxDepth : Option Nat) :
    ∀ (fuel : Nat) (g : AStarGraph V) (pq : List (Nat × Nat × Nat))
      (maxCost : Option Nat), ReachAdd av start moves g →
      ∀ sol, aStarLoop av start maxDepth fuel g pq none maxCost ≠
        AOutcome.done (some sol) := by
  intro fuel
  induction fuel with
  | zero =>
    intro g pq maxCost _ sol hcontra
    exact AOutcome.noConfusion hcontra
  | succ fuel ih =>
    intro g pq maxCost hg sol hcontra
    unfold aStarLoop at hcontra
    cases hpq : popBest pq with
    | none =>
      rw [hpq] at hcontra
      exact AOutcome.noConfusion hcontra
    | some x =>
      obtain ⟨⟨ind, prioCost, gates⟩, pq2⟩ := x
      rw [hpq] at hcontra
      dsimp only at hcontra
      split at hcontra
      · exact Option.noConfusion (AOutcome.done.inj hcontra)
      · split at hcontra
        · exact Option.noConfusion (AOutcome.done.inj hcontra)
        · cases hv : valueOf g ind with
          | none =>
            rw [hv] at hcontra
            exact AOutcome.noConfusion hcontra
          | some v =>
            rw [hv] at hcontra
            dsimp only at hcontra
            have hg2 : ReachAdd av start moves
                (expandChildren av g ind (fun qb => av.isComplete v qb start)) :=
              reachAdd_expandChildren av start moves g ind _ hg
            have hchildren : ∀ c ∈ childrenOf
                (expandChildren av g ind (fun qb => av.isComplete v qb start)) ind,
                (match valueOf (expandChildren av g ind
                    (fun qb => av.isComplete v qb start)) c with
                  | some w => av.beq w start
                  | none => false) = false := by
              intro c hcmem
              cases hvc : valueOf (expandChildren av g ind
                  (fun qb => av.isComplete v qb start)) c with
              | none => rfl
              | some w =>
                cases hwb : av.beq w start with
                | false => exact hwb
                | true =>
                  exfalso
                  have hc0 := reachAdd_value_start_is_root av start moves hb _ hg2
                    c w hvc hwb
                  subst hc0
                  unfold childrenOf at hcmem
                  obtain ⟨e, he, hdst⟩ := List.mem_map.mp hcmem
                  exact reachAdd_dst_ne_root av start moves _ hg2 ind e he hdst
            have hres := drvFold_none av start
              (expandChildren av g ind (fun qb => av.isComplete v qb start))
              (childrenOf (expandChildren av g ind
                (fun qb => av.isComplete v qb start)) ind) hchildren pq2
            rw [hres] at hcontra
            exact ih (expandChildren av g ind (fun qb => av.isComplete v qb start))
              _ _ hg2 sol hcontra

/-- Lawfulness of the `CXCircuit16` observable equality. -/
theorem lawfulBeq_av16 : LawfulBeqV av16 :=
  fun a b => ⟨fun h => eq_of_matBeq h, fun h => matBeq_of_eq h⟩

/-- Claim C10: the root node's value is never compared against the target,
so when `start` equals `target` the driver never returns a solution at all
— in particular never the zero-gate (empty) one: every child examined by a
solution check is a freshly deduplicated non-root node, whose value
therefore differs from the root's value `start = target`, and the run ends
through the depth cap, a panic, or fuel exhaustion with `min_solution`
still `none`. -/
theorem a_star_start_eq_target_no_solution {V : Type} (av : AValue V) (start : V)
    (moves : List CX) (maxDepth : Option Nat) (fuel : Nat) (hb : LawfulBeqV av)
    (sol : List CX) :
    aStar av start start moves maxDepth fuel ≠ AOutcome.done (some sol) :=
  aStarLoop_no_solution av start moves hb maxDepth fuel (newGraph start moves)
    [(rootInd (newGraph start moves), av.dist start start, 0)] none ReachAdd.base sol

/-- Claim C10 witness: searching from the identity for the identity with
one allowed move and a depth cap never returns the empty solution. -/
theorem a_star_start_eq_target_no_solution_witness :
    aStar av16 eyeMat eyeMat [⟨0, 1⟩] (some 0) 3 ≠ AOutcome.done (some []) :=
  a_star_start_eq_target_no_solution av16 eyeMat [⟨0, 1⟩] (some 0) 3 lawfulBeq_av16 []
